import Mathlib

/-!
# Verification of `build_coast` (one-degree-cell coastline encoder)

Shallow embedding of the two-pass `build_coast` program:

* Pass 1 (ingestion): shapes are read from each input source, coordinates are
  normalized (+180 / +90 bias, 360-degree longitude clamp), the vertex stream
  is split into per-cell segments, and each closed segment is appended to a
  per-cell staging store (`cell_LLL_BBB` files in the program; an association
  list keyed by `(londeg, latdeg)` here).
* Pass 2 (encoding): each cell's staged segments are drained in row-major cell
  order, delta-coded, and bit-packed into self-describing blocks, while a
  dense 180x360 index table at the head of the output file is patched with
  each nonempty cell's (address, segment count, vertex count).

C `int32_t` arithmetic is modelled by `Int` (no overflow occurs in the
declared coordinate ranges), doubles by `ℚ`, and the byte buffers by
MSB-first bit lists (`List Bool`).
-/

namespace BuildCoast

/-! ## Bit codec

`bit_pack` / `bit_unpack` come from the `nvutility` library, whose source is
not part of this repository.  Modelled from the spec: "BitCodec — packs/unpacks
unsigned integers of arbitrary bit width (1–32) into/out of a byte buffer at an
arbitrary bit offset, MSB-first within each field". -/

/-- The `w`-bit MSB-first bit list of `n % 2^w`. -/
def toBits : Nat → Nat → List Bool
  | 0, _ => []
  | w + 1, n => toBits w (n / 2) ++ [n % 2 == 1]

/-- Read an MSB-first bit list back as a natural number. -/
def fromBits (l : List Bool) : Nat :=
  l.foldl (fun a b => 2 * a + (if b then 1 else 0)) 0

/-- The low bits of a (possibly negative) C integer value, as packed by
`bit_pack`'s two's-complement truncation to `w` bits. -/
def packVal (w : Nat) (v : Int) : Nat := (v % (2 ^ w : Int)).toNat

/-- Modelled from the spec: `bit_pack buf pos w v` overwrites the `w` bits of
`buf` starting at bit offset `pos` with the MSB-first bits of `v`. -/
def bitPack (buf : List Bool) (pos w : Nat) (v : Int) : List Bool :=
  buf.take pos ++ toBits w (packVal w v) ++ buf.drop (pos + w)

@[simp] theorem toBits_length (w n : Nat) : (toBits w n).length = w := by
  induction w generalizing n with
  | zero => rfl
  | succ w ih => simp [toBits, ih]

theorem fromBits_append_singleton (l : List Bool) (b : Bool) :
    fromBits (l ++ [b]) = 2 * fromBits l + (if b then 1 else 0) := by
  simp [fromBits]

theorem fromBits_toBits (w n : Nat) : fromBits (toBits w n) = n % 2 ^ w := by
  induction w generalizing n with
  | zero => simp [toBits, fromBits, Nat.mod_one]
  | succ w ih =>
    rw [toBits, fromBits_append_singleton, ih]
    have hsplit : n % 2 ^ (w + 1) = 2 * (n / 2 % 2 ^ w) + n % 2 := by
      have hpos : 0 < 2 ^ w := Nat.pos_pow_of_pos w (by norm_num)
      have hq : n / 2 % 2 ^ w < 2 ^ w := Nat.mod_lt _ hpos
      have hr : n % 2 < 2 := Nat.mod_lt _ (by norm_num)
      conv_lhs => rw [← Nat.div_add_mod n 2]
      rw [pow_succ, mul_comm (2 ^ w) 2, Nat.add_mod, Nat.mul_mod_mul_left]
      rw [Nat.mod_eq_of_lt (show n % 2 < 2 * 2 ^ w by omega),
          Nat.mod_eq_of_lt (show 2 * (n / 2 % 2 ^ w) + n % 2 < 2 * 2 ^ w by omega)]
    rw [hsplit]
    rcases Nat.mod_two_eq_zero_or_one n with h | h <;> simp [h]

theorem fromBits_toBits_of_lt {w n : Nat} (h : n < 2 ^ w) :
    fromBits (toBits w n) = n := by
  rw [fromBits_toBits, Nat.mod_eq_of_lt h]

/-- Reading `w` bits off the front of `toBits w n ++ rest` recovers `n % 2^w`
and leaves `rest`. -/
theorem take_toBits_append (w n : Nat) (rest : List Bool) :
    (toBits w n ++ rest).take w = toBits w n :=
  List.take_left' (toBits_length w n)

theorem drop_toBits_append (w n : Nat) (rest : List Bool) :
    (toBits w n ++ rest).drop w = rest :=
  List.drop_left' (toBits_length w n)

theorem packVal_lt (w : Nat) (v : Int) : packVal w v < 2 ^ w := by
  unfold packVal
  have hpos : (0 : Int) < 2 ^ w := by positivity
  have h1 := Int.emod_nonneg v (ne_of_gt hpos)
  have h2 := Int.emod_lt_of_pos v hpos
  have hcast : ((2 ^ w : Nat) : Int) = 2 ^ w := by push_cast; ring
  omega

theorem packVal_coe_of_nonneg_lt {w : Nat} {v : Int} (h0 : 0 ≤ v)
    (h1 : v < 2 ^ w) : (packVal w v : Int) = v := by
  unfold packVal
  rw [Int.emod_eq_of_lt h0 h1, Int.toNat_of_nonneg h0]

/-! ## Bit-width formula

`count_bits = NINT (log10 (n) / log10 (2.0) + 1.0)` (source lines 618–620),
i.e. the nearest integer to `log2 n`, plus one.  For `n ≥ 1` the nearest
integer to `log2 n` is `Nat.log2 n + 1` exactly when `n` lies above
`2 ^ (Nat.log2 n + 1/2)`, i.e. when `n^2 ≥ 2 ^ (2 * Nat.log2 n + 1)`
(no tie is possible since `log2 n` is never a half-integer, and the
double-precision evaluation is exact to well below the distance to the
nearest half-integer for all representable `n`). -/

/-- Floor of `log2`, by structural recursion on a fuel bound (so that it
reduces inside the kernel, unlike `Nat.log2`). -/
def flog2Aux : Nat → Nat → Nat
  | 0, _ => 0
  | fuel + 1, n => if 2 ≤ n then flog2Aux fuel (n / 2) + 1 else 0

def flog2 (n : Nat) : Nat := flog2Aux n n

theorem flog2Aux_eq_log2 : ∀ fuel n, n ≤ fuel → flog2Aux fuel n = Nat.log2 n := by
  intro fuel
  induction fuel with
  | zero =>
    intro n hn
    interval_cases n
    simp [flog2Aux, Nat.log2]
  | succ fuel ih =>
    intro n hn
    rw [flog2Aux, Nat.log2]
    by_cases h2 : 2 ≤ n
    · have hdiv : n / 2 ≤ fuel := by omega
      rw [if_pos h2, if_pos h2, ih _ hdiv]
    · rw [if_neg h2, if_neg h2]

theorem flog2_eq_log2 (n : Nat) : flog2 n = Nat.log2 n :=
  flog2Aux_eq_log2 n n le_rfl

/-- Nearest integer to `log2 n` (for `n ≥ 1`). -/
def natRoundLog2 (n : Nat) : Nat :=
  if 2 ^ (2 * flog2 n + 1) ≤ n ^ 2 then flog2 n + 1 else flog2 n

/-- `width n = NINT (log2 n) + 1`: the field width the encoder assigns. -/
def width (n : Nat) : Nat := natRoundLog2 n + 1

theorem natRoundLog2_ge (n : Nat) : Nat.log2 n ≤ natRoundLog2 n := by
  unfold natRoundLog2; rw [flog2_eq_log2]; split <;> omega

theorem natRoundLog2_le (n : Nat) : natRoundLog2 n ≤ Nat.log2 n + 1 := by
  unfold natRoundLog2; rw [flog2_eq_log2]; split <;> omega

/-- `round (log2 n) + 1` is never less than the number of bits needed to
represent `n`: every `n` fits in its own `width n`. -/
theorem lt_two_pow_width (n : Nat) : n < 2 ^ width n := by
  have h1 : n < 2 ^ (n.log2 + 1) := Nat.lt_log2_self
  have h2 : n.log2 + 1 ≤ width n := by
    have := natRoundLog2_ge n; unfold width; omega
  exact h1.trans_le (Nat.pow_le_pow_right (by norm_num) h2)

/-! ## Per-segment encoding (source lines 540–661)

A staged segment is a list of integer vertices `(x, y)`
(`x = NINT (lon * 100000)`, `y = NINT (lat * 100000)`). -/

abbrev Pt := Int × Int

/-- `diff_x[0]`: `MIN` folded over the x-deltas with sentinel `99999999`. -/
def minFold (l : List Int) : Int := l.foldl min 99999999

/-- `diff_x[1]`: `MAX` folded over the x-deltas with sentinel `-99999999`. -/
def maxFold (l : List Int) : Int := l.foldl max (-99999999)

/-- The per-axis deltas `segx[k] - segx[k-1]`, `k = 1 .. count-1` (source
line 583).  The source subtracts `int32_t` values; this unbounded `Int`
equals it whenever the true difference fits `int32`, which holds for every
segment pass 1 stages (scaled coordinates lie in `[0, 36000000)`, so
`|delta| < 2^26`).  Claims about out-of-envelope data must add that bound
themselves. -/
def dxs (seg : List Pt) : List Int :=
  (seg.zip seg.tail).map fun p => p.2.1 - p.1.1

/-- The y-axis deltas, with the same `int32` caveat as `dxs`. -/
def dys (seg : List Pt) : List Int :=
  (seg.zip seg.tail).map fun p => p.2.2 - p.1.2

def maxBias : Int := 131071

def biasX (seg : List Pt) : Int := -(minFold (dxs seg))

def biasY (seg : List Pt) : Int := -(minFold (dys seg))

/-- `range_x = diff_x[1] - diff_x[0]`, floored to 1 when zero. -/
def rangeX (seg : List Pt) : Int :=
  let r := maxFold (dxs seg) - minFold (dxs seg)
  if r = 0 then 1 else r

def rangeY (seg : List Pt) : Int :=
  let r := maxFold (dys seg) - minFold (dys seg)
  if r = 0 then 1 else r

def countBits (seg : List Pt) : Nat := width seg.length

def lonOffsetBits (seg : List Pt) : Nat := width (rangeX seg).toNat

def latOffsetBits (seg : List Pt) : Nat := width (rangeY seg).toNat

/-- Total packed bit count of one segment (source line 623).  The source
computes this in an `int32_t`; this unbounded `Nat` equals it exactly when
`sizeBits seg < 2^31`.  On overflow the source's wrapped (negative) size
makes the `calloc` at line 628 fail and the program exits before packing,
so claims about emitted blocks carry `sizeBits seg < 2^31` as the
no-overflow side condition. -/
def sizeBits (seg : List Pt) : Nat :=
  5 + 5 + 5 + countBits seg + lonOffsetBits seg + latOffsetBits seg +
    18 + 18 + 26 + 25 + (seg.length - 1) * (lonOffsetBits seg + latOffsetBits seg)

/-- Allocated block size in bytes: `size / 8 + 1` (source line 626), under
the same `sizeBits seg < 2^31` no-overflow condition as `sizeBits`. -/
def sizeBytes (seg : List Pt) : Nat := sizeBits seg / 8 + 1

/-- The per-vertex offset fields `(dx + bias_x)(lon_offset_bits) ·
(dy + bias_y)(lat_offset_bits)` for `k = 1 .. count-1` (source lines 647–654). -/
def offFields (lob lab : Nat) (bx yb : Int) : List Pt → List (Nat × Int)
  | [] => []
  | [_] => []
  | p :: q :: t =>
    (lob, q.1 - p.1 + bx) :: (lab, q.2 - p.2 + yb) :: offFields lob lab bx yb (q :: t)

/-- The full field list of one segment, in the exact order the source packs
them (lines 636–654). -/
def fieldsOf (seg : List Pt) : List (Nat × Int) :=
  (5, (countBits seg : Int)) :: (5, (lonOffsetBits seg : Int)) ::
  (5, (latOffsetBits seg : Int)) :: (countBits seg, (seg.length : Int)) ::
  (18, biasX seg + maxBias) :: (18, biasY seg + maxBias) ::
  (26, seg.headI.1) :: (25, seg.headI.2) ::
  offFields (lonOffsetBits seg) (latOffsetBits seg) (biasX seg) (biasY seg) seg

def totalWidth (fs : List (Nat × Int)) : Nat := (fs.map Prod.fst).sum

/-- Sequentially `bit_pack` each field at the running bit offset
(the `bit_pack (buffer, pos, w, v); pos += w` idiom). -/
def packSeq (buf : List Bool) (pos : Nat) : List (Nat × Int) → List Bool
  | [] => buf
  | (w, v) :: fs => packSeq (bitPack buf pos w v) (pos + w) fs

/-- Spec-level view of the packed buffer: each field's MSB-first bits,
concatenated in order. -/
def packFields (fs : List (Nat × Int)) : List Bool :=
  (fs.map fun f => toBits f.1 (packVal f.1 f.2)).flatten

inductive EncErr where
  | lonBias (i j : Int) (b : Int)
  | latBias (i j : Int) (b : Int)
  | nullWrite
  deriving DecidableEq

/-- Encode one staged segment for cell `(lat i, lon j)`: the bias range
checks (source lines 594–607) followed by the bit-packing of the block
(lines 623–654).  Errors model `exit (-1)`. -/
def encodeSegment (i j : Int) (seg : List Pt) : Except EncErr (List Bool) :=
  if biasX seg > maxBias ∨ biasX seg < -maxBias then
    .error (.lonBias i j (biasX seg))
  else if biasY seg > maxBias ∨ biasY seg < -maxBias then
    .error (.latBias i j (biasY seg))
  else
    .ok (packSeq (List.replicate (8 * sizeBytes seg) false) 0 (fieldsOf seg))

/-! ### The sequential `bit_pack` loop equals field concatenation -/

theorem bitPack_aligned (A B : List Bool) (w : Nat) (v : Int) :
    bitPack (A ++ B) A.length w v = A ++ (toBits w (packVal w v) ++ B.drop w) := by
  unfold bitPack
  rw [List.take_left, List.drop_append, List.append_assoc]

@[simp] theorem packFields_nil : packFields [] = [] := rfl

theorem packFields_cons (w : Nat) (v : Int) (fs : List (Nat × Int)) :
    packFields ((w, v) :: fs) = toBits w (packVal w v) ++ packFields fs := by
  simp [packFields]

@[simp] theorem totalWidth_nil : totalWidth [] = 0 := rfl

theorem totalWidth_cons (w : Nat) (v : Int) (fs : List (Nat × Int)) :
    totalWidth ((w, v) :: fs) = w + totalWidth fs := by
  simp [totalWidth]

theorem packFields_length (fs : List (Nat × Int)) :
    (packFields fs).length = totalWidth fs := by
  induction fs with
  | nil => rfl
  | cons f fs ih =>
    obtain ⟨w, v⟩ := f
    rw [packFields_cons, totalWidth_cons, List.length_append, toBits_length, ih]

theorem packSeq_append (fs : List (Nat × Int)) (A B : List Bool) :
    packSeq (A ++ B) A.length fs = A ++ (packFields fs ++ B.drop (totalWidth fs)) := by
  induction fs generalizing A B with
  | nil => simp [packSeq]
  | cons f fs ih =>
    obtain ⟨w, v⟩ := f
    rw [packSeq, bitPack_aligned, ← List.append_assoc]
    have hlen : A.length + w = (A ++ toBits w (packVal w v)).length := by simp
    rw [hlen, ih]
    rw [packFields_cons, totalWidth_cons, List.append_assoc, List.drop_drop]
    simp [List.append_assoc]

/-- A successfully encoded block is the claimed field concatenation followed
by zero padding out to the allocated byte size. -/
theorem encodeSegment_ok_eq {i j : Int} {seg : List Pt} {bs : List Bool}
    (h : encodeSegment i j seg = .ok bs) :
    bs = packFields (fieldsOf seg) ++
      List.replicate (8 * sizeBytes seg - totalWidth (fieldsOf seg)) false := by
  unfold encodeSegment at h
  split at h
  · exact absurd h (by simp)
  split at h
  · exact absurd h (by simp)
  have hb : bs = packSeq (List.replicate (8 * sizeBytes seg) false) 0 (fieldsOf seg) := by
    cases h; rfl
  have := packSeq_append (fieldsOf seg) [] (List.replicate (8 * sizeBytes seg) false)
  simpa [hb, List.drop_replicate] using this

theorem encodeSegment_ok_length {i j : Int} {seg : List Pt} {bs : List Bool}
    (h : encodeSegment i j seg = .ok bs) (hle : totalWidth (fieldsOf seg) ≤ 8 * sizeBytes seg) :
    bs.length = 8 * sizeBytes seg := by
  rw [encodeSegment_ok_eq h]
  simp [packFields_length]
  omega

theorem totalWidth_offFields (lob lab : Nat) (bx yb : Int) :
    ∀ seg : List Pt,
      totalWidth (offFields lob lab bx yb seg) = (seg.length - 1) * (lob + lab)
  | [] => by simp [offFields]
  | [p] => by simp [offFields]
  | p :: q :: t => by
    rw [offFields, totalWidth_cons, totalWidth_cons,
      totalWidth_offFields lob lab bx yb (q :: t)]
    simp [List.length_cons]
    ring

/-- The allocation formula (source line 623) counts `lon_offset_bits` and
`lat_offset_bits` once more than the bits actually packed, so the buffer is
always large enough for the fields. -/
theorem sizeBits_eq_totalWidth_add (seg : List Pt) :
    sizeBits seg = totalWidth (fieldsOf seg) + lonOffsetBits seg + latOffsetBits seg := by
  simp [fieldsOf, sizeBits, totalWidth_cons, totalWidth_offFields]
  ring

theorem totalWidth_fieldsOf_le (seg : List Pt) :
    totalWidth (fieldsOf seg) ≤ 8 * sizeBytes seg := by
  have h := sizeBits_eq_totalWidth_add seg
  unfold sizeBytes
  omega

/-! ### Sentinel fold bounds (`MIN`/`MAX` over the deltas) -/

theorem foldl_min_le_init (a : Int) (l : List Int) : l.foldl min a ≤ a := by
  induction l generalizing a with
  | nil => simp
  | cons x t ih => exact (ih (min a x)).trans (min_le_left a x)

theorem foldl_min_le_mem {x : Int} :
    ∀ {l : List Int} (a : Int), x ∈ l → l.foldl min a ≤ x := by
  intro l
  induction l with
  | nil => intro a h; cases h
  | cons y t ih =>
    intro a h
    rcases List.mem_cons.mp h with rfl | hx
    · exact (foldl_min_le_init (min a x) t).trans (min_le_right a x)
    · exact ih (min a y) hx

theorem init_le_foldl_max (a : Int) (l : List Int) : a ≤ l.foldl max a := by
  induction l generalizing a with
  | nil => simp
  | cons x t ih => exact (le_max_left a x).trans (ih (max a x))

theorem mem_le_foldl_max {x : Int} :
    ∀ {l : List Int} (a : Int), x ∈ l → x ≤ l.foldl max a := by
  intro l
  induction l with
  | nil => intro a h; cases h
  | cons y t ih =>
    intro a h
    rcases List.mem_cons.mp h with rfl | hx
    · exact (le_max_right a x).trans (init_le_foldl_max (max a x) t)
    · exact ih (max a y) hx

theorem minFold_le_mem {x : Int} {l : List Int} (h : x ∈ l) : minFold l ≤ x :=
  foldl_min_le_mem _ h

theorem mem_le_maxFold {x : Int} {l : List Int} (h : x ∈ l) : x ≤ maxFold l :=
  mem_le_foldl_max _ h

@[simp] theorem dxs_nil : dxs [] = [] := rfl

@[simp] theorem dxs_single (p : Pt) : dxs [p] = [] := rfl

@[simp] theorem dys_nil : dys [] = [] := rfl

@[simp] theorem dys_single (p : Pt) : dys [p] = [] := rfl

theorem dxs_cons_cons (p q : Pt) (t : List Pt) :
    dxs (p :: q :: t) = (q.1 - p.1) :: dxs (q :: t) := rfl

theorem dys_cons_cons (p q : Pt) (t : List Pt) :
    dys (p :: q :: t) = (q.2 - p.2) :: dys (q :: t) := rfl

/-- Splitting a successful `encodeSegment`: both bias checks passed. -/
theorem encodeSegment_ok_elim {i j : Int} {seg : List Pt} {bs : List Bool}
    (h : encodeSegment i j seg = .ok bs) :
    -maxBias ≤ biasX seg ∧ biasX seg ≤ maxBias ∧
    -maxBias ≤ biasY seg ∧ biasY seg ≤ maxBias := by
  unfold encodeSegment at h
  split at h
  · exact absurd h (by simp)
  split at h
  · exact absurd h (by simp)
  rename_i hx hy
  push_neg at hx hy
  exact ⟨hx.2, hx.1, hy.2, hy.1⟩

/-- A successfully encoded segment has at least two vertices: with no deltas
the sentinel `diff_x[0] = 99999999` survives and `bias_x = -99999999` fails
the range check. -/
theorem encodeSegment_ok_length_ge_two {i j : Int} {seg : List Pt}
    {bs : List Bool} (h : encodeSegment i j seg = .ok bs) : 2 ≤ seg.length := by
  by_contra hlt
  push_neg at hlt
  interval_cases hl : seg.length
  · have : seg = [] := List.length_eq_zero.mp hl
    subst this
    have := (encodeSegment_ok_elim h).1
    simp [biasX, minFold, maxBias] at this
  · obtain ⟨p, hp⟩ := List.length_eq_one.mp hl
    subst hp
    have := (encodeSegment_ok_elim h).1
    simp [biasX, minFold, maxBias] at this

/-! ## Decoding (inverse of the packing, for the round-trip property) -/

/-- Decode `k` offset pairs, tracking the previous vertex. -/
def decodeOffs (lob lab : Nat) (bx yb : Int) :
    Nat → List Bool → Int → Int → List Pt
  | 0, _, _, _ => []
  | k + 1, bs, px, py =>
    let x := px + (fromBits (bs.take lob) : Int) - bx
    let bs1 := bs.drop lob
    let y := py + (fromBits (bs1.take lab) : Int) - yb
    let bs2 := bs1.drop lab
    (x, y) :: decodeOffs lob lab bx yb k bs2 x y

/-- Decode one block: read the three 5-bit widths, the count, the two biased
biases, the absolute first vertex, then `count - 1` offset pairs. -/
def decodeSegment (bs : List Bool) : List Pt :=
  let cb := fromBits (bs.take 5)
  let bs1 := bs.drop 5
  let lob := fromBits (bs1.take 5)
  let bs2 := bs1.drop 5
  let lab := fromBits (bs2.take 5)
  let bs3 := bs2.drop 5
  let cnt := fromBits (bs3.take cb)
  let bs4 := bs3.drop cb
  let bx := (fromBits (bs4.take 18) : Int) - maxBias
  let bs5 := bs4.drop 18
  let yb := (fromBits (bs5.take 18) : Int) - maxBias
  let bs6 := bs5.drop 18
  let x0 := (fromBits (bs6.take 26) : Int)
  let bs7 := bs6.drop 26
  let y0 := (fromBits (bs7.take 25) : Int)
  let bs8 := bs7.drop 25
  (x0, y0) :: decodeOffs lob lab bx yb (cnt - 1) bs8 x0 y0

/-- Decoding the offset pairs inverts their packing, tracking the previous
vertex, provided every biased offset fits its field width. -/
theorem decodeOffs_packFields (lob lab : Nat) (bx yb : Int) :
    ∀ (t : List Pt) (p : Pt) (junk : List Bool),
      (∀ d ∈ dxs (p :: t), 0 ≤ d + bx ∧ d + bx < 2 ^ lob) →
      (∀ d ∈ dys (p :: t), 0 ≤ d + yb ∧ d + yb < 2 ^ lab) →
      decodeOffs lob lab bx yb t.length
        (packFields (offFields lob lab bx yb (p :: t)) ++ junk) p.1 p.2 = t := by
  intro t
  induction t with
  | nil => intro p junk _ _; simp [offFields, decodeOffs]
  | cons q t' ih =>
    intro p junk hx hy
    have hdx := hx (q.1 - p.1) (by rw [dxs_cons_cons]; exact List.mem_cons_self _ _)
    have hdy := hy (q.2 - p.2) (by rw [dys_cons_cons]; exact List.mem_cons_self _ _)
    rw [offFields, packFields_cons, packFields_cons, List.length_cons]
    simp only [decodeOffs, List.append_assoc]
    rw [take_toBits_append, drop_toBits_append, take_toBits_append, drop_toBits_append]
    rw [fromBits_toBits, Nat.mod_eq_of_lt (packVal_lt _ _),
        fromBits_toBits, Nat.mod_eq_of_lt (packVal_lt _ _)]
    rw [packVal_coe_of_nonneg_lt hdx.1 hdx.2, packVal_coe_of_nonneg_lt hdy.1 hdy.2]
    have hxq : p.1 + (q.1 - p.1 + bx) - bx = q.1 := by ring
    have hyq : p.2 + (q.2 - p.2 + yb) - yb = q.2 := by ring
    rw [hxq, hyq]
    have hrec := ih q junk
      (fun d hd => hx d (by rw [dxs_cons_cons]; exact List.mem_cons_of_mem _ hd))
      (fun d hd => hy d (by rw [dys_cons_cons]; exact List.mem_cons_of_mem _ hd))
    rw [hrec]

/-! ### Field-fit bounds -/

theorem foldl_max_le {c : Int} :
    ∀ {l : List Int} {a : Int}, a ≤ c → (∀ x ∈ l, x ≤ c) → l.foldl max a ≤ c := by
  intro l
  induction l with
  | nil => intro a ha _; simpa using ha
  | cons y t ih =>
    intro a ha hl
    exact ih (max_le ha (hl y (List.mem_cons_self _ _)))
      fun x hx => hl x (List.mem_cons_of_mem _ hx)

theorem le_foldl_min {c : Int} :
    ∀ {l : List Int} {a : Int}, c ≤ a → (∀ x ∈ l, c ≤ x) → c ≤ l.foldl min a := by
  intro l
  induction l with
  | nil => intro a ha _; simpa using ha
  | cons y t ih =>
    intro a ha hl
    exact ih (le_min ha (hl y (List.mem_cons_self _ _)))
      fun x hx => hl x (List.mem_cons_of_mem _ hx)

theorem packVal_natCast {w n : Nat} (h : n < 2 ^ w) : packVal w (n : Int) = n := by
  have h0 : (0 : Int) ≤ (n : Int) := Int.ofNat_nonneg n
  have h1 : (n : Int) < 2 ^ w := by exact_mod_cast h
  have := packVal_coe_of_nonneg_lt h0 h1
  exact_mod_cast this

/-- Reading back a packed natural that fits its width. -/
theorem read_natCast {w n : Nat} (h : n < 2 ^ w) : packVal w (n : Int) % 2 ^ w = n := by
  rw [packVal_natCast h, Nat.mod_eq_of_lt h]

/-- Reading back a packed nonnegative integer that fits its width. -/
theorem read_int {w : Nat} {v : Int} (h0 : 0 ≤ v) (h1 : v < 2 ^ w) :
    ((packVal w v % 2 ^ w : Nat) : Int) = v := by
  rw [Nat.mod_eq_of_lt (packVal_lt w v), packVal_coe_of_nonneg_lt h0 h1]

theorem width_le_of_lt_pow {n k : Nat} (h : n < 2 ^ k) : width n ≤ k + 1 := by
  rcases Nat.eq_zero_or_pos n with rfl | hn
  · have : width 0 = 1 := by decide
    omega
  · have hlog : Nat.log2 n < k := by
      rw [Nat.log2_lt (Nat.pos_iff_ne_zero.mp hn)]
      exact h
    have := natRoundLog2_le n
    unfold width
    omega

/-- For counts up to `1518500249 = ⌊2^30.5⌋` the count width fits the 5-bit
width header. -/
theorem countBits_le_31 {n : Nat} (h : n ≤ 1518500249) : width n ≤ 31 := by
  have hlog : Nat.log2 n ≤ 30 := by
    rcases Nat.eq_zero_or_pos n with rfl | hn
    · simp [Nat.log2]
    · have : Nat.log2 n < 31 := by
        rw [Nat.log2_lt (Nat.pos_iff_ne_zero.mp hn)]
        calc n ≤ 1518500249 := h
        _ < 2 ^ 31 := by norm_num
      omega
  unfold width natRoundLog2
  rw [flog2_eq_log2]
  split
  · rename_i hcond
    by_contra hgt
    have h30 : Nat.log2 n = 30 := by omega
    rw [h30] at hcond
    have hsq : n ^ 2 ≤ 1518500249 ^ 2 := Nat.pow_le_pow_left h 2
    have : (2 : Nat) ^ (2 * 30 + 1) ≤ 1518500249 ^ 2 := le_trans hcond hsq
    norm_num at this
  · omega

/-- Every delta, after adding the bias, fits the computed offset width. -/
theorem fit_of_mem {l : List Int} {d : Int} (hd : d ∈ l) :
    0 ≤ d - minFold l ∧
    d - minFold l <
      (2 : Int) ^ width (if maxFold l - minFold l = 0 then 1
        else maxFold l - minFold l).toNat := by
  have h1 : minFold l ≤ d := minFold_le_mem hd
  have h2 : d ≤ maxFold l := mem_le_maxFold hd
  refine ⟨by omega, ?_⟩
  by_cases hr : maxFold l - minFold l = 0
  · rw [if_pos hr]
    have : d - minFold l ≤ 0 := by omega
    have hpos : (0 : Int) < 2 ^ width (1 : Int).toNat := by positivity
    omega
  · rw [if_neg hr]
    set r : Int := maxFold l - minFold l with hrdef
    have hr0 : 0 ≤ r := by omega
    have hle : d - minFold l ≤ r := by omega
    have hw : r.toNat < 2 ^ width r.toNat := lt_two_pow_width _
    have hcast : (r.toNat : Int) = r := Int.toNat_of_nonneg hr0
    calc d - minFold l ≤ r := hle
    _ = (r.toNat : Int) := hcast.symm
    _ < ((2 ^ width r.toNat : Nat) : Int) := by exact_mod_cast hw
    _ = (2 : Int) ^ width r.toNat := by push_cast; ring

theorem rangeX_def (seg : List Pt) :
    rangeX seg = (if maxFold (dxs seg) - minFold (dxs seg) = 0 then 1
      else maxFold (dxs seg) - minFold (dxs seg)) := rfl

theorem rangeY_def (seg : List Pt) :
    rangeY seg = (if maxFold (dys seg) - minFold (dys seg) = 0 then 1
      else maxFold (dys seg) - minFold (dys seg)) := rfl

/-- The biased x-offsets of a segment fit `lon_offset_bits`. -/
theorem offsets_fit_x (seg : List Pt) :
    ∀ d ∈ dxs seg, 0 ≤ d + biasX seg ∧
      d + biasX seg < (2 : Int) ^ lonOffsetBits seg := by
  intro d hd
  have := fit_of_mem hd
  rw [← rangeX_def] at this
  have hrw : d + biasX seg = d - minFold (dxs seg) := by
    unfold biasX; ring
  rw [hrw]
  exact this

theorem offsets_fit_y (seg : List Pt) :
    ∀ d ∈ dys seg, 0 ≤ d + biasY seg ∧
      d + biasY seg < (2 : Int) ^ latOffsetBits seg := by
  intro d hd
  have := fit_of_mem hd
  rw [← rangeY_def] at this
  have hrw : d + biasY seg = d - minFold (dys seg) := by
    unfold biasY; ring
  rw [hrw]
  exact this

/-- Deltas of a segment whose x-coordinates are in the declared range. -/
theorem dxs_bound {seg : List Pt} (hxr : ∀ p ∈ seg, 0 ≤ p.1 ∧ p.1 ≤ 35999999) :
    ∀ d ∈ dxs seg, -35999999 ≤ d ∧ d ≤ 35999999 := by
  intro d hd
  obtain ⟨pr, hpr, rfl⟩ := List.mem_map.mp hd
  obtain ⟨h1, h2⟩ := List.of_mem_zip hpr
  have hb1 := hxr _ h1
  have hb2 := hxr _ (List.mem_of_mem_tail h2)
  omega

theorem dys_bound {seg : List Pt} (hyr : ∀ p ∈ seg, 0 ≤ p.2 ∧ p.2 ≤ 17999999) :
    ∀ d ∈ dys seg, -17999999 ≤ d ∧ d ≤ 17999999 := by
  intro d hd
  obtain ⟨pr, hpr, rfl⟩ := List.mem_map.mp hd
  obtain ⟨h1, h2⟩ := List.of_mem_zip hpr
  have hb1 := hyr _ h1
  have hb2 := hyr _ (List.mem_of_mem_tail h2)
  omega

/-- With deltas bounded by the declared coordinate ranges, the computed
offset width is far below 32. -/
theorem range_width_le {l : List Int} {c : Int} (hc : 0 ≤ c) (hc' : c ≤ 35999999)
    (hb : ∀ d ∈ l, -c ≤ d ∧ d ≤ c) :
    width (if maxFold l - minFold l = 0 then 1 else maxFold l - minFold l).toNat ≤ 28 := by
  by_cases hr : maxFold l - minFold l = 0
  · rw [if_pos hr]
    decide
  · rw [if_neg hr]
    have hmax : maxFold l ≤ c :=
      foldl_max_le (by omega) fun x hx => (hb x hx).2
    have hmin : -c ≤ minFold l :=
      le_foldl_min (by omega) fun x hx => (hb x hx).1
    have htn : (maxFold l - minFold l).toNat < 2 ^ 27 := by
      have : maxFold l - minFold l ≤ 71999998 := by omega
      omega
    exact width_le_of_lt_pow htn

theorem lonOffsetBits_le_28 {seg : List Pt}
    (hxr : ∀ p ∈ seg, 0 ≤ p.1 ∧ p.1 ≤ 35999999) : lonOffsetBits seg ≤ 28 := by
  have := range_width_le (show (0:Int) ≤ 35999999 by norm_num)
    (show (35999999:Int) ≤ 35999999 by norm_num) (dxs_bound hxr)
  rw [← rangeX_def] at this
  exact this

theorem latOffsetBits_le_28 {seg : List Pt}
    (hyr : ∀ p ∈ seg, 0 ≤ p.2 ∧ p.2 ≤ 17999999) : latOffsetBits seg ≤ 28 := by
  have := range_width_le (show (0:Int) ≤ 17999999 by norm_num)
    (show (17999999:Int) ≤ 35999999 by norm_num) (dys_bound hyr)
  rw [← rangeY_def] at this
  exact this

/-- Round trip: a successfully encoded segment with at most `1518500249`
vertices (so the count width fits its 5-bit header) and coordinates in the
declared ranges is reproduced exactly by decoding. -/
theorem decodeSegment_encodeSegment {i j : Int} {seg : List Pt} {bs : List Bool}
    (h : encodeSegment i j seg = .ok bs)
    (hcnt : seg.length ≤ 1518500249)
    (hxr : ∀ p ∈ seg, 0 ≤ p.1 ∧ p.1 ≤ 35999999)
    (hyr : ∀ p ∈ seg, 0 ≤ p.2 ∧ p.2 ≤ 17999999) :
    decodeSegment bs = seg := by
  obtain ⟨hbx1, hbx2, hby1, hby2⟩ := encodeSegment_ok_elim h
  have hlen2 := encodeSegment_ok_length_ge_two h
  obtain ⟨p, t, rfl⟩ : ∃ p t, seg = p :: t := by
    cases seg with
    | nil => simp at hlen2
    | cons p t => exact ⟨p, t, rfl⟩
  -- field-fit bounds
  have h32 : (2 : Nat) ^ 5 = 32 := by norm_num
  have hcb : countBits (p :: t) < 2 ^ 5 := by
    have := countBits_le_31 hcnt
    unfold countBits
    omega
  have hlob : lonOffsetBits (p :: t) < 2 ^ 5 := by
    have := lonOffsetBits_le_28 hxr
    omega
  have hlab : latOffsetBits (p :: t) < 2 ^ 5 := by
    have := latOffsetBits_le_28 hyr
    omega
  have hcntfit : (p :: t).length < 2 ^ countBits (p :: t) := lt_two_pow_width _
  have h218 : (2 : Int) ^ 18 = 262144 := by norm_num
  have hbxfit : 0 ≤ biasX (p :: t) + maxBias ∧
      biasX (p :: t) + maxBias < (2 : Int) ^ 18 := by
    unfold maxBias at *
    omega
  have hbyfit : 0 ≤ biasY (p :: t) + maxBias ∧
      biasY (p :: t) + maxBias < (2 : Int) ^ 18 := by
    unfold maxBias at *
    omega
  have hx0 := hxr p (List.mem_cons_self _ _)
  have hy0 := hyr p (List.mem_cons_self _ _)
  have hx0fit : p.1 < (2 : Int) ^ 26 := by
    have : (2 : Int) ^ 26 = 67108864 := by norm_num
    omega
  have hy0fit : p.2 < (2 : Int) ^ 25 := by
    have : (2 : Int) ^ 25 = 33554432 := by norm_num
    omega
  -- block structure
  have hbs : bs =
      toBits 5 (packVal 5 (countBits (p :: t) : Int)) ++
      (toBits 5 (packVal 5 (lonOffsetBits (p :: t) : Int)) ++
      (toBits 5 (packVal 5 (latOffsetBits (p :: t) : Int)) ++
      (toBits (countBits (p :: t))
        (packVal (countBits (p :: t)) ((p :: t).length : Int)) ++
      (toBits 18 (packVal 18 (biasX (p :: t) + maxBias)) ++
      (toBits 18 (packVal 18 (biasY (p :: t) + maxBias)) ++
      (toBits 26 (packVal 26 p.1) ++
      (toBits 25 (packVal 25 p.2) ++
      (packFields (offFields (lonOffsetBits (p :: t)) (latOffsetBits (p :: t))
          (biasX (p :: t)) (biasY (p :: t)) (p :: t)) ++
        List.replicate (8 * sizeBytes (p :: t) - totalWidth (fieldsOf (p :: t)))
          false)))))))) := by
    rw [encodeSegment_ok_eq h]
    simp only [fieldsOf, packFields_cons, List.headI, List.append_assoc]
  rw [hbs]
  simp only [decodeSegment]
  rw [take_toBits_append, drop_toBits_append, fromBits_toBits, read_natCast hcb]
  rw [take_toBits_append, drop_toBits_append, fromBits_toBits, read_natCast hlob]
  rw [take_toBits_append, drop_toBits_append, fromBits_toBits, read_natCast hlab]
  rw [take_toBits_append, drop_toBits_append, fromBits_toBits, read_natCast hcntfit]
  rw [take_toBits_append, drop_toBits_append, fromBits_toBits,
    read_int hbxfit.1 hbxfit.2]
  rw [take_toBits_append, drop_toBits_append, fromBits_toBits,
    read_int hbyfit.1 hbyfit.2]
  rw [take_toBits_append, drop_toBits_append, fromBits_toBits,
    read_int hx0.1 hx0fit]
  rw [take_toBits_append, drop_toBits_append, fromBits_toBits,
    read_int hy0.1 hy0fit]
  have hxadd : biasX (p :: t) + maxBias - maxBias = biasX (p :: t) := by ring
  have hyadd : biasY (p :: t) + maxBias - maxBias = biasY (p :: t) := by ring
  rw [hxadd, hyadd]
  have hlc : (p :: t).length - 1 = t.length := by simp
  rw [hlc]
  rw [decodeOffs_packFields _ _ _ _ t p _
    (offsets_fit_x (p :: t)) (offsets_fit_y (p :: t))]

/-! ### The width formula is nearest-integer rounding of `log2` -/

theorem natRoundLog2_eq_round_logb {n : Nat} (hn : 1 ≤ n) :
    (natRoundLog2 n : ℤ) = round (Real.logb 2 (n : ℝ)) := by
  have hne : n ≠ 0 := by omega
  have hnpos : (0 : ℝ) < (n : ℝ) := by exact_mod_cast Nat.pos_of_ne_zero hne
  have hk1 : 2 ^ Nat.log2 n ≤ n := (Nat.le_log2 hne).mp le_rfl
  have hk2 : n < 2 ^ (Nat.log2 n + 1) := (Nat.log2_lt hne).mp (Nat.lt_succ_self _)
  have hlow : (Nat.log2 n : ℝ) ≤ Real.logb 2 (n : ℝ) := by
    rw [Real.le_logb_iff_rpow_le one_lt_two hnpos, Real.rpow_natCast]
    exact_mod_cast hk1
  have hhigh : Real.logb 2 (n : ℝ) < (Nat.log2 n : ℝ) + 1 := by
    rw [Real.logb_lt_iff_lt_rpow one_lt_two hnpos]
    have hc : ((Nat.log2 n : ℝ) + 1) = ((Nat.log2 n + 1 : ℕ) : ℝ) := by push_cast; ring
    rw [hc, Real.rpow_natCast]
    exact_mod_cast hk2
  have key : 2 ^ (2 * Nat.log2 n + 1) ≤ n ^ 2 ↔
      ((2 * Nat.log2 n + 1 : ℕ) : ℝ) ≤ 2 * Real.logb 2 (n : ℝ) := by
    have hsq : (0 : ℝ) < (n : ℝ) ^ 2 := by positivity
    have hlogsq : (2 : ℝ) * Real.logb 2 (n : ℝ) = Real.logb 2 ((n : ℝ) ^ 2) := by
      rw [Real.logb_pow]
      norm_num
    rw [hlogsq, Real.le_logb_iff_rpow_le one_lt_two hsq, Real.rpow_natCast]
    constructor
    · intro h
      exact_mod_cast h
    · intro h
      exact_mod_cast h
  rw [round_eq]
  unfold natRoundLog2
  rw [flog2_eq_log2]
  split
  · rename_i hcond
    have hge := key.mp hcond
    push_cast at hge
    symm
    rw [Int.floor_eq_iff]
    constructor
    · push_cast
      linarith
    · push_cast
      linarith
  · rename_i hcond
    have hlt : 2 * Real.logb 2 (n : ℝ) < ((2 * Nat.log2 n + 1 : ℕ) : ℝ) := by
      by_contra hc
      push_neg at hc
      exact hcond (key.mpr hc)
    push_cast at hlt
    symm
    rw [Int.floor_eq_iff]
    constructor
    · push_cast
      linarith
    · push_cast
      linarith

/-- The encoder's field width, as the spec states it:
`round (log2 n) + 1` with nearest-integer rounding. -/
theorem width_eq_round_logb {n : Nat} (hn : 1 ≤ n) :
    (width n : ℤ) = round (Real.logb 2 (n : ℝ)) + 1 := by
  unfold width
  rw [← natRoundLog2_eq_round_logb hn]
  push_cast
  ring

/-! ## Pass 1: normalization (source lines 244–264) -/

/-- C cast `(int32_t) x`: truncation toward zero. -/
def truncInt (q : ℚ) : Int := if 0 ≤ q then ⌊q⌋ else -⌊-q⌋

/-- `NINT` from `nvutility` (source not in this repository).  Modelled from
the spec: `IntegerVertex` is `round (lon×100000)`, nearest integer, and the
C idiom rounds half away from zero. -/
def nint (q : ℚ) : Int := if 0 ≤ q then ⌊q + 1 / 2⌋ else -⌊-q + 1 / 2⌋

/-- `lon[1] = padfX[j] + 180.0`, with the boundary clamp of exactly `360.0`
to `180.0` (source lines 244, 256–260). -/
def normLon (rawx : ℚ) : ℚ := if rawx + 180 = 360 then 180 else rawx + 180

/-- `lat[1] = padfY[j] + 90.0` (no boundary clamp on latitude). -/
def normLat (rawy : ℚ) : ℚ := rawy + 90

def lonDeg (rawx : ℚ) : Int := truncInt (normLon rawx)

def latDeg (rawy : ℚ) : Int := truncInt (normLat rawy)

/-! ## Pass 1: the per-cell staging store

One association-list entry per created `cell_LLL_BBB` file, keyed by
`(londeg, latdeg)`; the value is the list of staged records in append
order (a record is a vertex list; `count = length`, and a 0-count record
is an empty list). -/

abbrev Store := List ((Int × Int) × List (List Pt))

def storeFind : Store → (Int × Int) → Option (List (List Pt))
  | [], _ => none
  | e :: t, c => if e.1 = c then some e.2 else storeFind t c

/-- `fopen (fname, "ab")`: create the cell's (empty) stream if absent. -/
def storeOpen (st : Store) (c : Int × Int) : Store :=
  match storeFind st c with
  | some _ => st
  | none => st ++ [(c, [])]

/-- Append one record to a cell's stream. -/
def storeAppend (st : Store) (c : Int × Int) (r : List Pt) : Store :=
  st.map fun e => if e.1 = c then (e.1, e.2 ++ [r]) else e

/-! ## Pass 1: ingestion state machine (source lines 124–459) -/

structure IngestState where
  store : Store
  /-- The open `fp` stream, identified by its cell key (`none` = never
  opened / `NULL`). -/
  handle : Option (Int × Int)
  /-- `segx`/`segy`; `segCount = buf.length`. -/
  buf : List Pt
  londeg0 : Int
  /-- `latdeg[0]`: `-999` before the first vertex of the run, `-888` after
  each source boundary. -/
  latdeg0 : Int
  lon0 : ℚ
  lat0 : ℚ
  deriving DecidableEq

def initState : IngestState :=
  { store := [], handle := none, buf := [], londeg0 := -999, latdeg0 := -999,
    lon0 := -999, lat0 := -999 }

/-- `fwrite` of a record through the open handle; writing through a
never-opened (`NULL`) handle is the fatal `nullWrite` condition. -/
def writeRec (st : IngestState) (r : List Pt) : Except EncErr Store :=
  match st.handle with
  | none => .error .nullWrite
  | some c => .ok (storeAppend st.store c r)

/-- One iteration of the per-vertex loop (source lines 225–417). -/
def stepVertex (st : IngestState) (startSeg : Bool) (rawx rawy : ℚ) :
    Except EncErr IngestState :=
  let lon1 := normLon rawx
  let lat1 := normLat rawy
  let londeg1 := truncInt lon1
  let latdeg1 := truncInt lat1
  let cur : Pt := (nint (lon1 * 100000), nint (lat1 * 100000))
  if st.latdeg0 > -999 ∧ (latdeg1 ≠ st.latdeg0 ∨ londeg1 ≠ st.londeg0) then
    if startSeg then do
      let s ← writeRec st st.buf
      .ok { store := storeOpen s (londeg1, latdeg1),
            handle := some (londeg1, latdeg1), buf := [cur],
            londeg0 := londeg1, latdeg0 := latdeg1, lon0 := lon1, lat0 := lat1 }
    else do
      let prev : Pt := (nint (st.lon0 * 100000), nint (st.lat0 * 100000))
      let s ← writeRec st (st.buf ++ [prev])
      .ok { store := storeOpen s (londeg1, latdeg1),
            handle := some (londeg1, latdeg1), buf := [prev, cur],
            londeg0 := londeg1, latdeg0 := latdeg1, lon0 := lon1, lat0 := lat1 }
  else
    if startSeg then
      if st.latdeg0 = -999 then
        .ok { store := storeOpen st.store (londeg1, latdeg1),
              handle := some (londeg1, latdeg1),
              buf := (st.buf ++ [cur]),
              londeg0 := londeg1, latdeg0 := latdeg1, lon0 := lon1, lat0 := lat1 }
      else do
        let s ← writeRec st st.buf
        .ok { store := s, handle := st.handle, buf := [cur],
              londeg0 := londeg1, latdeg0 := latdeg1, lon0 := lon1, lat0 := lat1 }
    else
      .ok { st with
            buf := (st.buf ++ [cur]),
            londeg0 := londeg1, latdeg0 := latdeg1, lon0 := lon1, lat0 := lat1 }

/-- A shape: ring-start indices (`panPartStart`) and the vertex list
(parallel `padfX`/`padfY`; `nVertices = pts.length`). -/
structure Shape where
  parts : List Nat
  pts : List (ℚ × ℚ)
  deriving DecidableEq

/-- The inner vertex loop, carrying the index `j` and the `numParts`
counter (source lines 223–418). -/
def processPts (sh : Shape) : Nat → Nat → IngestState → List (ℚ × ℚ) →
    Except EncErr IngestState
  | _, _, st, [] => .ok st
  | j, numParts, st, q :: qs => do
    let ring := numParts < sh.parts.length ∧ sh.parts[numParts]? = some j
    let startSeg := (j = 0 ∧ 0 < sh.parts.length) ∨ ring
    let numParts' := if ring then numParts + 1 else numParts
    let st' ← stepVertex st startSeg q.1 q.2
    processPts sh (j + 1) numParts' st' qs

/-- Shapes with fewer than two vertices are skipped entirely
(source line 221). -/
def processShape (st : IngestState) (sh : Shape) : Except EncErr IngestState :=
  if 2 ≤ sh.pts.length then processPts sh 0 1 st sh.pts else .ok st

/-- One input source: reset `segCount`, ingest every shape, then
unconditionally flush the in-progress segment (source line 437) and force
the next source to start a new segment (`latdeg[0] = -888`, line 456). -/
def processSource (st : IngestState) (shapes : List Shape) :
    Except EncErr IngestState := do
  let st1 ← shapes.foldlM processShape { st with buf := [] }
  let s ← writeRec st1 st1.buf
  .ok { st1 with
        store := s, latdeg0 := -888 }

def runIngest (sources : List (List Shape)) : Except EncErr IngestState :=
  sources.foldlM processSource initState

/-! ## Pass 2: per-cell encoding and output assembly (source lines 465–699) -/

/-- The packed block of one segment (the `.ok` payload of `encodeSegment`). -/
def segBlock (seg : List Pt) : List Bool :=
  packSeq (List.replicate (8 * sizeBytes seg) false) 0 (fieldsOf seg)

/-- Drain one cell's records in order (source lines 535–662): skip 0-count
records, accumulate the cell's segment/vertex totals, pack each segment and
append its block, stopping at the first bias error.  Returns the bits
appended before any abort. -/
def encodeCellAux (i j : Int) : List (List Pt) → List Bool → Nat → Nat →
    List Bool × Nat × Nat × Option EncErr
  | [], acc, ns, nv => (acc, ns, nv, none)
  | r :: rs, acc, ns, nv =>
    if r.length = 0 then encodeCellAux i j rs acc ns nv
    else
      match encodeSegment i j r with
      | .error e => (acc, ns + 1, nv + r.length, some e)
      | .ok bits => encodeCellAux i j rs (acc ++ bits) (ns + 1) (nv + r.length)

def encodeCell (i j : Int) (recs : List (List Pt)) :
    List Bool × Nat × Nat × Option EncErr :=
  encodeCellAux i j recs [] 0 0

structure CellEntry where
  addr : Nat
  nseg : Nat
  nvert : Nat
  deriving DecidableEq

def zeroEntry : CellEntry := ⟨0, 0, 0⟩

/-- The output file: the index entries patched so far (in patch order) and
the appended block bits.  Entries never patched read back as `zeroEntry`,
exactly as the zero-initialized table slots do. -/
structure OutFile where
  patched : List ((Nat × Nat) × CellEntry)
  body : List Bool
  deriving DecidableEq

def lookupEntry : List ((Nat × Nat) × CellEntry) → (Nat × Nat) → Option CellEntry
  | [], _ => none
  | e :: t, c => if e.1 = c then some e.2 else lookupEntry t c

def entryAt (out : OutFile) (i j : Nat) : CellEntry :=
  (lookupEntry out.patched (i, j)).getD zeroEntry

/-- Bytes before the block area: 128 version bytes plus 64800 × 12 index
bytes. -/
def headerBytes : Nat := 128 + 64800 * 12

/-- Process one cell: look up its staging stream (`fopen (fname, "rb")`),
record `address = ftell (ofp)`, drain and pack the records, then patch the
cell's index entry (source lines 521–692).  `i` is the latitude index, `j`
the longitude index; the staging key is `(londeg, latdeg) = (j, i)`. -/
def pass2Cell (store : Store) (out : OutFile) (i j : Nat) :
    Except EncErr OutFile :=
  match storeFind store ((j : Int), (i : Int)) with
  | none => .ok out
  | some recs =>
    match encodeCell (i : Int) (j : Int) recs with
    | (_, _, _, some e) => .error e
    | (acc, ns, nv, none) =>
      .ok { patched := out.patched ++
              [((i, j), ⟨headerBytes + out.body.length / 8, ns, nv⟩)],
            body := out.body ++ acc }

/-- The row-major cell loop over `k = i*360 + j`, with the per-cell step in
tail position (so that the 64800 iterations evaluate iteratively). -/
def pass2Go (store : Store) : List Nat → OutFile → Except EncErr OutFile
  | [], out => .ok out
  | k :: ks, out =>
    match pass2Cell store out (k / 360) (k % 360) with
    | .error e => .error e
    | .ok out1 => pass2Go store ks out1

/-- The row-major cell loop: `k = i*360 + j` enumerates the source's nested
`for (i) for (j)` order, matching the entry offset `(i*360+j)*12 + 128`. -/
def pass2 (store : Store) : Except EncErr OutFile :=
  pass2Go store (List.range 64800) ⟨[], []⟩

/-- One 12-byte index entry: three 32-bit fields packed MSB-first
(source lines 672–679). -/
def entryBits (e : CellEntry) : List Bool :=
  toBits 32 e.addr ++ toBits 32 e.nseg ++ toBits 32 e.nvert

/-- The dense index table: 64800 entries in row-major order. -/
def headerBits (out : OutFile) : List Bool :=
  ((List.range 64800).map fun k => entryBits (entryAt out (k / 360) (k % 360))).flatten

/-- The whole output file, as bits: the 128-byte version tag, the index
table, then the concatenated blocks. -/
def serialize (ver : List Bool) (out : OutFile) : List Bool :=
  ver ++ headerBits out ++ out.body

@[simp] theorem entryBits_length (e : CellEntry) : (entryBits e).length = 96 := by
  simp [entryBits]

/-! ## Bias-check analysis (claims about error handling) -/

/-- Both bias range checks of source lines 594–607, as one predicate. -/
def biasInRange (seg : List Pt) : Prop :=
  -maxBias ≤ biasX seg ∧ biasX seg ≤ maxBias ∧
  -maxBias ≤ biasY seg ∧ biasY seg ≤ maxBias

instance (seg : List Pt) : Decidable (biasInRange seg) := by
  unfold biasInRange
  infer_instance

theorem encodeSegment_ok_of_biasInRange {seg : List Pt} (h : biasInRange seg)
    (i j : Int) : encodeSegment i j seg = .ok (segBlock seg) := by
  obtain ⟨h1, h2, h3, h4⟩ := h
  unfold encodeSegment
  rw [if_neg (by omega), if_neg (by omega)]
  rfl

theorem encodeSegment_error_of_not {seg : List Pt} (h : ¬biasInRange seg)
    (i j : Int) :
    (encodeSegment i j seg = .error (.lonBias i j (biasX seg)) ∧
      (biasX seg > maxBias ∨ biasX seg < -maxBias)) ∨
    (encodeSegment i j seg = .error (.latBias i j (biasY seg)) ∧
      (biasY seg > maxBias ∨ biasY seg < -maxBias)) := by
  unfold biasInRange at h
  push_neg at h
  unfold encodeSegment
  by_cases hx : biasX seg > maxBias ∨ biasX seg < -maxBias
  · left
    rw [if_pos hx]
    exact ⟨rfl, hx⟩
  · right
    push_neg at hx
    have hy : biasY seg > maxBias ∨ biasY seg < -maxBias := by
      rcases lt_or_le maxBias (biasY seg) with h' | h'
      · exact Or.inl h'
      · right
        by_contra hc
        push_neg at hc
        exact absurd (h (by omega) (by omega) hc) (by omega)
    rw [if_neg (by omega), if_pos hy]
    exact ⟨rfl, hy⟩

/-- The nonzero (`count ≠ 0`) records of a cell, in order. -/
def nonzeroRecs (recs : List (List Pt)) : List (List Pt) :=
  recs.filter fun r => decide (r.length ≠ 0)

/-- The bits a fully-encoded cell appends: each nonzero record's block. -/
def cellBlocks (recs : List (List Pt)) : List Bool :=
  ((nonzeroRecs recs).map segBlock).flatten

def nsOf (recs : List (List Pt)) : Nat := (nonzeroRecs recs).length

def nvOf (recs : List (List Pt)) : Nat :=
  ((nonzeroRecs recs).map List.length).sum

theorem nonzeroRecs_cons_zero (rs : List (List Pt)) :
    nonzeroRecs ([] :: rs) = nonzeroRecs rs := by
  simp [nonzeroRecs, List.filter_cons]

theorem nonzeroRecs_cons_pos {r : List Pt} (hz : r.length ≠ 0)
    (rs : List (List Pt)) : nonzeroRecs (r :: rs) = r :: nonzeroRecs rs := by
  unfold nonzeroRecs
  rw [List.filter_cons, if_pos (by simpa using hz)]

theorem cellBlocks_cons_zero (rs : List (List Pt)) :
    cellBlocks ([] :: rs) = cellBlocks rs := by
  rw [cellBlocks, cellBlocks, nonzeroRecs_cons_zero]

theorem nsOf_cons_zero (rs : List (List Pt)) : nsOf ([] :: rs) = nsOf rs := by
  rw [nsOf, nsOf, nonzeroRecs_cons_zero]

theorem nvOf_cons_zero (rs : List (List Pt)) : nvOf ([] :: rs) = nvOf rs := by
  rw [nvOf, nvOf, nonzeroRecs_cons_zero]

theorem cellBlocks_cons_pos {r : List Pt} (hz : r.length ≠ 0)
    (rs : List (List Pt)) :
    cellBlocks (r :: rs) = segBlock r ++ cellBlocks rs := by
  rw [cellBlocks, nonzeroRecs_cons_pos hz]
  simp [cellBlocks]

theorem nsOf_cons_pos {r : List Pt} (hz : r.length ≠ 0) (rs : List (List Pt)) :
    nsOf (r :: rs) = nsOf rs + 1 := by
  rw [nsOf, nonzeroRecs_cons_pos hz]
  simp [nsOf]

theorem nvOf_cons_pos {r : List Pt} (hz : r.length ≠ 0) (rs : List (List Pt)) :
    nvOf (r :: rs) = r.length + nvOf rs := by
  rw [nvOf, nonzeroRecs_cons_pos hz]
  simp [nvOf]

theorem encodeCellAux_ok (i j : Int) :
    ∀ (recs : List (List Pt)) (acc : List Bool) (ns nv : Nat),
      (∀ r ∈ recs, r.length ≠ 0 → biasInRange r) →
      encodeCellAux i j recs acc ns nv =
        (acc ++ cellBlocks recs, ns + nsOf recs, nv + nvOf recs, none) := by
  intro recs
  induction recs with
  | nil => intro acc ns nv _; simp [encodeCellAux, cellBlocks, nonzeroRecs, nsOf, nvOf]
  | cons r rs ih =>
    intro acc ns nv hall
    have htail : ∀ q ∈ rs, q.length ≠ 0 → biasInRange q :=
      fun q hq hqn => hall q (List.mem_cons_of_mem _ hq) hqn
    by_cases hz : r.length = 0
    · have hr : r = [] := List.length_eq_zero.mp hz
      subst hr
      rw [show encodeCellAux i j ([] :: rs) acc ns nv =
          encodeCellAux i j rs acc ns nv from rfl, ih acc ns nv htail,
        cellBlocks_cons_zero, nsOf_cons_zero, nvOf_cons_zero]
    · have hbr := hall r (List.mem_cons_self _ _) hz
      have hstep : encodeCellAux i j (r :: rs) acc ns nv =
          encodeCellAux i j rs (acc ++ segBlock r) (ns + 1) (nv + r.length) := by
        rw [encodeCellAux, if_neg hz, encodeSegment_ok_of_biasInRange hbr]
      rw [hstep, ih (acc ++ segBlock r) (ns + 1) (nv + r.length) htail,
        cellBlocks_cons_pos hz, nsOf_cons_pos hz, nvOf_cons_pos hz]
      have e2 : ns + 1 + nsOf rs = ns + (nsOf rs + 1) := by omega
      have e3 : nv + r.length + nvOf rs = nv + (r.length + nvOf rs) := by omega
      rw [List.append_assoc, e2, e3]

theorem encodeCellAux_error (i j : Int) (bad : List Pt)
    (hbadn : bad.length ≠ 0) (hbad : ¬biasInRange bad) :
    ∀ (pre post : List (List Pt)) (acc : List Bool) (ns nv : Nat),
      (∀ r ∈ pre, r.length ≠ 0 → biasInRange r) →
      ∃ e, encodeCellAux i j (pre ++ bad :: post) acc ns nv =
          (acc ++ cellBlocks pre, ns + nsOf pre + 1, nv + nvOf pre + bad.length,
            some e) ∧
        ((e = .lonBias i j (biasX bad) ∧
            (biasX bad > maxBias ∨ biasX bad < -maxBias)) ∨
         (e = .latBias i j (biasY bad) ∧
            (biasY bad > maxBias ∨ biasY bad < -maxBias))) := by
  intro pre
  induction pre with
  | nil =>
    intro post acc ns nv _
    rcases encodeSegment_error_of_not hbad i j with ⟨herr, hw⟩ | ⟨herr, hw⟩
    · refine ⟨.lonBias i j (biasX bad), ?_, Or.inl ⟨rfl, hw⟩⟩
      simp only [List.nil_append]
      rw [encodeCellAux, if_neg hbadn, herr]
      simp [cellBlocks, nonzeroRecs, nsOf, nvOf]
    · refine ⟨.latBias i j (biasY bad), ?_, Or.inr ⟨rfl, hw⟩⟩
      simp only [List.nil_append]
      rw [encodeCellAux, if_neg hbadn, herr]
      simp [cellBlocks, nonzeroRecs, nsOf, nvOf]
  | cons r rs ih =>
    intro post acc ns nv hall
    have htail : ∀ q ∈ rs, q.length ≠ 0 → biasInRange q :=
      fun q hq hqn => hall q (List.mem_cons_of_mem _ hq) hqn
    by_cases hz : r.length = 0
    · have hr : r = [] := List.length_eq_zero.mp hz
      subst hr
      obtain ⟨e, heq, hcase⟩ := ih post acc ns nv htail
      refine ⟨e, ?_, hcase⟩
      rw [List.cons_append,
        show encodeCellAux i j ([] :: (rs ++ bad :: post)) acc ns nv =
          encodeCellAux i j (rs ++ bad :: post) acc ns nv from rfl, heq,
        cellBlocks_cons_zero, nsOf_cons_zero, nvOf_cons_zero]
    · have hbr := hall r (List.mem_cons_self _ _) hz
      obtain ⟨e, heq, hcase⟩ := ih post (acc ++ segBlock r) (ns + 1) (nv + r.length)
        htail
      refine ⟨e, ?_, hcase⟩
      have hstep : encodeCellAux i j ((r :: rs) ++ bad :: post) acc ns nv =
          encodeCellAux i j (rs ++ bad :: post) (acc ++ segBlock r) (ns + 1)
            (nv + r.length) := by
        rw [List.cons_append, encodeCellAux, if_neg hz,
          encodeSegment_ok_of_biasInRange hbr]
      rw [hstep, heq, cellBlocks_cons_pos hz, nsOf_cons_pos hz, nvOf_cons_pos hz]
      have e2 : ns + 1 + nsOf rs + 1 = ns + (nsOf rs + 1) + 1 := by omega
      have e3 : nv + r.length + nvOf rs + bad.length =
          nv + (r.length + nvOf rs) + bad.length := by omega
      rw [List.append_assoc, e2, e3]

/-! ## Normalized cell-index ranges (source lines 244–264) -/

theorem lonDeg_range {rawx : ℚ} (h1 : -180 ≤ rawx) (h2 : rawx ≤ 180) :
    0 ≤ lonDeg rawx ∧ lonDeg rawx ≤ 359 := by
  unfold lonDeg normLon
  by_cases hb : rawx + 180 = 360
  · rw [if_pos hb]
    unfold truncInt
    rw [if_pos (by norm_num)]
    norm_num
  · rw [if_neg hb]
    have h0 : (0 : ℚ) ≤ rawx + 180 := by linarith
    unfold truncInt
    rw [if_pos h0]
    constructor
    · exact Int.le_floor.mpr (by exact_mod_cast h0)
    · have hlt : rawx + 180 < 360 := lt_of_le_of_ne (by linarith) hb
      have := Int.floor_lt.mpr (show rawx + 180 < ((360 : ℤ) : ℚ) by exact_mod_cast hlt)
      omega

theorem latDeg_range {rawy : ℚ} (h1 : -90 ≤ rawy) (h2 : rawy < 90) :
    0 ≤ latDeg rawy ∧ latDeg rawy ≤ 179 := by
  unfold latDeg normLat
  have h0 : (0 : ℚ) ≤ rawy + 90 := by linarith
  unfold truncInt
  rw [if_pos h0]
  constructor
  · exact Int.le_floor.mpr (by exact_mod_cast h0)
  · have hlt : rawy + 90 < 180 := by linarith
    have := Int.floor_lt.mpr (show rawy + 90 < ((180 : ℤ) : ℚ) by exact_mod_cast hlt)
    omega

/-! ## The never-opened staging handle (first source without usable shapes) -/

theorem processShape_skip {st : IngestState} {sh : Shape}
    (h : sh.pts.length < 2) : processShape st sh = .ok st := by
  unfold processShape
  rw [if_neg (by omega)]

theorem foldlM_processShape_skip :
    ∀ (shapes : List Shape) (st : IngestState),
      (∀ sh ∈ shapes, sh.pts.length < 2) →
      shapes.foldlM processShape st = .ok st := by
  intro shapes
  induction shapes with
  | nil => intro st _; rfl
  | cons sh rest ih =>
    intro st hall
    rw [List.foldlM_cons, processShape_skip (hall sh (List.mem_cons_self _ _))]
    show rest.foldlM processShape st = .ok st
    exact ih st fun q hq => hall q (List.mem_cons_of_mem _ hq)

theorem runIngest_nullWrite (shapes : List Shape) (rest : List (List Shape))
    (h : ∀ sh ∈ shapes, sh.pts.length < 2) :
    runIngest (shapes :: rest) = .error .nullWrite := by
  unfold runIngest
  rw [List.foldlM_cons]
  have h1 : processSource initState shapes = .error .nullWrite := by
    unfold processSource
    rw [show ({ initState with buf := [] } : IngestState) = initState from rfl,
      foldlM_processShape_skip shapes initState h]
    rfl
  rw [h1]
  rfl

/-! ## Cell-boundary split with an in-progress segment (source lines 298–353) -/

/-- Crossing into a different cell mid-segment: the previous point is
appended to the current segment, the segment is closed (written) under the
open handle's cell, and a new segment starts under the new cell seeded with
that same previous point, followed by the current point. -/
theorem stepVertex_cell_split (st : IngestState) (rawx rawy : ℚ)
    (hprev : 0 ≤ st.latdeg0)
    (hdiff : truncInt (normLat rawy) ≠ st.latdeg0 ∨
      truncInt (normLon rawx) ≠ st.londeg0)
    (c0 : Int × Int) (hhandle : st.handle = some c0) :
    stepVertex st false rawx rawy = .ok
      { store := storeOpen
          (storeAppend st.store c0
            (st.buf ++ [(nint (st.lon0 * 100000), nint (st.lat0 * 100000))]))
          (truncInt (normLon rawx), truncInt (normLat rawy)),
        handle := some (truncInt (normLon rawx), truncInt (normLat rawy)),
        buf := [(nint (st.lon0 * 100000), nint (st.lat0 * 100000)),
                (nint (normLon rawx * 100000), nint (normLat rawy * 100000))],
        londeg0 := truncInt (normLon rawx), latdeg0 := truncInt (normLat rawy),
        lon0 := normLon rawx, lat0 := normLat rawy } := by
  simp only [stepVertex]
  rw [if_pos (⟨by omega, hdiff⟩ :
    st.latdeg0 > -999 ∧ (truncInt (normLat rawy) ≠ st.latdeg0 ∨
      truncInt (normLon rawx) ≠ st.londeg0))]
  rw [if_neg (by simp : ¬(false = true))]
  simp only [writeRec, hhandle]
  rfl

/-! ## Staging-store lemmas -/

theorem storeFind_cons (e : (Int × Int) × List (List Pt)) (t : Store)
    (c : Int × Int) :
    storeFind (e :: t) c = if e.1 = c then some e.2 else storeFind t c := rfl

theorem storeAppend_cons (e : (Int × Int) × List (List Pt)) (t : Store)
    (c : Int × Int) (r : List Pt) :
    storeAppend (e :: t) c r =
      (if e.1 = c then (e.1, e.2 ++ [r]) else e) :: storeAppend t c r := rfl

theorem storeFind_append_self (st : Store) (c : Int × Int) (r : List Pt) :
    storeFind (storeAppend st c r) c = (storeFind st c).map (fun l => l ++ [r]) := by
  induction st with
  | nil => rfl
  | cons e t ih =>
    by_cases he : e.1 = c
    · simp [storeAppend_cons, storeFind_cons, he]
    · simp [storeAppend_cons, storeFind_cons, he, ih]

theorem storeFind_append_other (st : Store) (c c' : Int × Int) (r : List Pt)
    (h : c' ≠ c) :
    storeFind (storeAppend st c r) c' = storeFind st c' := by
  induction st with
  | nil => rfl
  | cons e t ih =>
    by_cases he : e.1 = c
    · have hcc : ¬c = c' := fun hc => h hc.symm
      simp [storeAppend_cons, storeFind_cons, he, hcc, h, ih]
    · by_cases he' : e.1 = c' <;>
        simp [storeAppend_cons, storeFind_cons, he, he', h, ih]

theorem storeFind_concat (st : Store) (e : (Int × Int) × List (List Pt))
    (c : Int × Int) :
    storeFind (st ++ [e]) c = (match storeFind st c with
      | some l => some l
      | none => if e.1 = c then some e.2 else none) := by
  induction st with
  | nil => rfl
  | cons f t ih =>
    by_cases hf : f.1 = c
    · simp [storeFind_cons, hf]
    · simp only [List.cons_append, storeFind_cons, if_neg hf]
      exact ih

theorem storeFind_open (st : Store) (newc c : Int × Int) {recs : List (List Pt)}
    (h : storeFind (storeOpen st newc) c = some recs) :
    storeFind st c = some recs ∨ (c = newc ∧ recs = []) := by
  unfold storeOpen at h
  rcases hf : storeFind st newc with _ | l
  · rw [hf, storeFind_concat] at h
    rcases hc : storeFind st c with _ | q
    · rw [hc] at h
      have h' : (if newc = c then some ([] : List (List Pt)) else none) =
          some recs := h
      by_cases hcc : newc = c
      · rw [if_pos hcc] at h'
        exact Or.inr ⟨hcc.symm, (Option.some.inj h').symm⟩
      · rw [if_neg hcc] at h'
        cases h'
    · rw [hc] at h
      have h' : some q = some recs := h
      exact Or.inl h'
  · rw [hf] at h
    left
    exact h

/-! ## Ingestion invariant: every staged stream receives a nonzero record -/

/-- Some record of the stream is nonzero. -/
def GoodRecs (recs : List (List Pt)) : Prop := ∃ r ∈ recs, r ≠ []

/-- Every created cell stream holds a nonzero record (holds between
sources, after the unconditional end-of-source flush). -/
def GoodStore (store : Store) : Prop :=
  ∀ c recs, storeFind store c = some recs → GoodRecs recs

/-- Mid-ingestion invariant: every created cell stream either already holds
a nonzero record, or is the open stream whose nonempty in-progress segment
is still to be flushed into it. -/
def Inv (s : IngestState) : Prop :=
  ∀ c recs, storeFind s.store c = some recs →
    GoodRecs recs ∨ (s.handle = some c ∧ s.buf ≠ [])

/-- Before the first processed vertex nothing has been opened. -/
def Sent (s : IngestState) : Prop :=
  s.latdeg0 = -999 → s.store = [] ∧ s.handle = none

theorem goodRecs_append {recs : List (List Pt)} (r : List Pt)
    (h : GoodRecs recs) : GoodRecs (recs ++ [r]) :=
  let ⟨q, hq, hqne⟩ := h
  ⟨q, List.mem_append_left _ hq, hqne⟩

theorem goodRecs_append_ne (recs : List (List Pt)) {r : List Pt} (h : r ≠ []) :
    GoodRecs (recs ++ [r]) :=
  ⟨r, List.mem_append_right _ (List.mem_singleton.mpr rfl), h⟩

/-- Closing any record into the open stream leaves every stream good:
the closed record is nonzero unless the pending segment was empty, in which
case the stream was already good. -/
theorem close_goodStore {st : IngestState} {c0 : Int × Int} {r : List Pt}
    (hInv : Inv st) (hh : st.handle = some c0) (hr : r = st.buf ∨ r ≠ []) :
    GoodStore (storeAppend st.store c0 r) := by
  intro c recs hfind
  by_cases hc : c = c0
  · subst hc
    rw [storeFind_append_self] at hfind
    rcases hold : storeFind st.store c with _ | l
    · rw [hold] at hfind
      cases hfind
    · rw [hold] at hfind
      have hrecs : l ++ [r] = recs := Option.some.inj hfind
      subst hrecs
      rcases hInv c l hold with hgood | ⟨_, hbuf⟩
      · exact goodRecs_append _ hgood
      · rcases hr with rfl | hrne
        · exact goodRecs_append_ne _ hbuf
        · exact goodRecs_append_ne _ hrne
  · rw [storeFind_append_other _ _ _ _ hc] at hfind
    rcases hInv c recs hfind with hgood | ⟨hhc, _⟩
    · exact hgood
    · rw [hh] at hhc
      exact absurd (Option.some.inj hhc).symm hc

theorem goodStore_inv {s : IngestState} (h : GoodStore s.store) : Inv s :=
  fun c recs hf => Or.inl (h c recs hf)

theorem inv_of_goodStore_open {G : Store} (hG : GoodStore G)
    (newc : Int × Int) (buf' : List Pt) (hb : buf' ≠ []) (ld0 lt0 : Int)
    (lo la : ℚ) :
    Inv { store := storeOpen G newc, handle := some newc, buf := buf',
          londeg0 := ld0, latdeg0 := lt0, lon0 := lo, lat0 := la } := by
  intro c recs hf
  rcases storeFind_open G newc c hf with hfG | ⟨rfl, rfl⟩
  · exact Or.inl (hG c recs hfG)
  · exact Or.inr ⟨rfl, hb⟩

theorem latdeg_nonneg {rawy : ℚ} (h1 : -90 ≤ rawy) (_h2 : rawy ≤ 90) :
    0 ≤ truncInt (normLat rawy) := by
  unfold normLat truncInt
  rw [if_pos (by linarith)]
  exact Int.le_floor.mpr (by push_cast; linarith)

/-- Every per-vertex step preserves the staging invariant (for latitudes in
the declared range, so the previous-cell sentinel values stay distinct from
real cell indices). -/
theorem stepVertex_inv {st st' : IngestState} {b : Bool} {rawx rawy : ℚ}
    (hry1 : -90 ≤ rawy) (hry2 : rawy ≤ 90)
    (hInv : Inv st) (hSent : Sent st)
    (h : stepVertex st b rawx rawy = .ok st') : Inv st' ∧ Sent st' := by
  have hlat := latdeg_nonneg hry1 hry2
  simp only [stepVertex] at h
  split at h
  · -- changed cells
    split at h
    · -- start_segment: close buf under the open handle, open the new cell
      rcases hh : st.handle with _ | c0
      · rw [show writeRec st st.buf = .error .nullWrite from by
          unfold writeRec; rw [hh]] at h
        exact (nomatch h)
      · rw [show writeRec st st.buf = .ok (storeAppend st.store c0 st.buf) from by
          unfold writeRec; rw [hh]] at h
        have h' := Except.ok.inj h
        subst h'
        refine ⟨?_, ?_⟩
        · exact inv_of_goodStore_open
            (close_goodStore hInv hh (Or.inl rfl)) _ _ (by simp) _ _ _ _
        · intro hld
          have hx : truncInt (normLat rawy) = -999 := hld
          omega
    · -- mid-segment: close buf ++ [prev], open the new cell seeded with prev
      rcases hh : st.handle with _ | c0
      · rw [show writeRec st (st.buf ++
            [(nint (st.lon0 * 100000), nint (st.lat0 * 100000))]) =
              .error .nullWrite from by unfold writeRec; rw [hh]] at h
        exact (nomatch h)
      · rw [show writeRec st (st.buf ++
            [(nint (st.lon0 * 100000), nint (st.lat0 * 100000))]) =
              .ok (storeAppend st.store c0 (st.buf ++
                [(nint (st.lon0 * 100000), nint (st.lat0 * 100000))])) from by
          unfold writeRec; rw [hh]] at h
        have h' := Except.ok.inj h
        subst h'
        refine ⟨?_, ?_⟩
        · exact inv_of_goodStore_open
            (close_goodStore hInv hh (Or.inr (by simp))) _ _ (by simp) _ _ _ _
        · intro hld
          have hx : truncInt (normLat rawy) = -999 := hld
          omega
  · -- same cell (or no previous vertex)
    split at h
    · split at h
      · -- very first vertex of the run: open the first stream
        have h' := Except.ok.inj h
        subst h'
        rename_i hld999
        obtain ⟨hstore, _⟩ := hSent hld999
        refine ⟨?_, ?_⟩
        · intro c recs hf
          simp only [hstore] at hf
          rcases storeFind_open [] _ c hf with hfG | ⟨rfl, rfl⟩
          · cases hfG
          · exact Or.inr ⟨rfl, by simp⟩
        · intro hld
          have hx : truncInt (normLat rawy) = -999 := hld
          omega
      · -- ring start inside the same cell: close buf, keep the handle
        rcases hh : st.handle with _ | c0
        · rw [show writeRec st st.buf = .error .nullWrite from by
            unfold writeRec; rw [hh]] at h
          exact (nomatch h)
        · rw [show writeRec st st.buf = .ok (storeAppend st.store c0 st.buf) from by
            unfold writeRec; rw [hh]] at h
          have h' := Except.ok.inj h
          subst h'
          refine ⟨?_, ?_⟩
          · exact goodStore_inv (close_goodStore hInv hh (Or.inl rfl))
          · intro hld
            have hx : truncInt (normLat rawy) = -999 := hld
            omega
    · -- plain append to the current segment
      have h' := Except.ok.inj h
      subst h'
      refine ⟨?_, ?_⟩
      · intro c recs hf
        simp only at hf
        rcases hInv c recs hf with hgood | ⟨hhc, _⟩
        · exact Or.inl hgood
        · exact Or.inr ⟨hhc, by simp⟩
      · intro hld
        have hx : truncInt (normLat rawy) = -999 := hld
        omega

/-- Latitudes within the declared input range. -/
def LatOK (pts : List (ℚ × ℚ)) : Prop := ∀ q ∈ pts, -90 ≤ q.2 ∧ q.2 ≤ 90

theorem processPts_inv (sh : Shape) :
    ∀ (pts : List (ℚ × ℚ)) (j np : Nat) (st st' : IngestState),
      LatOK pts → Inv st → Sent st →
      processPts sh j np st pts = .ok st' → Inv st' ∧ Sent st' := by
  intro pts
  induction pts with
  | nil =>
    intro j np st st' _ hI hS h
    cases Except.ok.inj h
    exact ⟨hI, hS⟩
  | cons q qs ih =>
    intro j np st st' hlat hI hS h
    simp only [processPts] at h
    rcases hsv : stepVertex st ((j = 0 ∧ 0 < sh.parts.length) ∨
        (np < sh.parts.length ∧ sh.parts[np]? = some j) : Prop) q.1 q.2
      with e | st1
    · rw [hsv] at h
      exact (nomatch h)
    · rw [hsv] at h
      have hq := hlat q (List.mem_cons_self _ _)
      obtain ⟨hI1, hS1⟩ := stepVertex_inv hq.1 hq.2 hI hS hsv
      exact ih (j + 1) _ st1 st'
        (fun p hp => hlat p (List.mem_cons_of_mem _ hp)) hI1 hS1 h

theorem processShape_inv {st st' : IngestState} {sh : Shape}
    (hlat : LatOK sh.pts) (hI : Inv st) (hS : Sent st)
    (h : processShape st sh = .ok st') : Inv st' ∧ Sent st' := by
  unfold processShape at h
  split at h
  · exact processPts_inv sh sh.pts 0 1 st st' hlat hI hS h
  · cases Except.ok.inj h
    exact ⟨hI, hS⟩

theorem foldl_shapes_inv :
    ∀ (shapes : List Shape) (st st' : IngestState),
      (∀ sh ∈ shapes, LatOK sh.pts) → Inv st → Sent st →
      shapes.foldlM processShape st = .ok st' → Inv st' ∧ Sent st' := by
  intro shapes
  induction shapes with
  | nil =>
    intro st st' _ hI hS h
    cases Except.ok.inj h
    exact ⟨hI, hS⟩
  | cons sh rest ih =>
    intro st st' hlat hI hS h
    rw [List.foldlM_cons] at h
    rcases hps : processShape st sh with e | st1
    · rw [hps] at h
      exact (nomatch h)
    · rw [hps] at h
      obtain ⟨hI1, hS1⟩ :=
        processShape_inv (hlat sh (List.mem_cons_self _ _)) hI hS hps
      exact ih st1 st' (fun q hq => hlat q (List.mem_cons_of_mem _ hq)) hI1 hS1 h

theorem processSource_good {st st' : IngestState} {shapes : List Shape}
    (hlat : ∀ sh ∈ shapes, LatOK sh.pts)
    (hG : GoodStore st.store) (hS : Sent st)
    (h : processSource st shapes = .ok st') :
    GoodStore st'.store ∧ Sent st' := by
  unfold processSource at h
  have hI0 : Inv { st with buf := [] } := fun c recs hf => Or.inl (hG c recs hf)
  have hS0 : Sent { st with buf := [] } := fun hld => hS hld
  rcases hfold : shapes.foldlM processShape { st with buf := [] } with e | st1
  · rw [hfold] at h
    exact (nomatch h)
  · rw [hfold] at h
    obtain ⟨hI1, hS1⟩ := foldl_shapes_inv shapes _ st1 hlat hI0 hS0 hfold
    replace h : (do
        let s ← writeRec st1 st1.buf
        Except.ok { st1 with store := s, latdeg0 := -888 }) = Except.ok st' := h
    rcases hh : st1.handle with _ | c0
    · rw [show writeRec st1 st1.buf = .error .nullWrite from by
        unfold writeRec; rw [hh]] at h
      exact (nomatch h)
    · rw [show writeRec st1 st1.buf = .ok (storeAppend st1.store c0 st1.buf) from by
        unfold writeRec; rw [hh]] at h
      have h' := Except.ok.inj h
      subst h'
      refine ⟨close_goodStore hI1 hh (Or.inl rfl), ?_⟩
      intro hld
      have hx : (-888 : Int) = -999 := hld
      omega

theorem foldl_sources_good :
    ∀ (sources : List (List Shape)) (st st' : IngestState),
      (∀ src ∈ sources, ∀ sh ∈ src, LatOK sh.pts) →
      GoodStore st.store → Sent st →
      sources.foldlM processSource st = .ok st' → GoodStore st'.store := by
  intro sources
  induction sources with
  | nil =>
    intro st st' _ hG _ h
    cases Except.ok.inj h
    exact hG
  | cons src rest ih =>
    intro st st' hlat hG hS h
    rw [List.foldlM_cons] at h
    rcases hps : processSource st src with e | st1
    · rw [hps] at h
      exact (nomatch h)
    · rw [hps] at h
      obtain ⟨hG1, hS1⟩ :=
        processSource_good (hlat src (List.mem_cons_self _ _)) hG hS hps
      exact ih st1 st' (fun q hq => hlat q (List.mem_cons_of_mem _ hq)) hG1 hS1 h

/-- After a complete ingestion run (with latitudes in range), every staged
cell stream contains at least one nonzero record. -/
theorem runIngest_goodStore {sources : List (List Shape)} {st : IngestState}
    (hlat : ∀ src ∈ sources, ∀ sh ∈ src, LatOK sh.pts)
    (h : runIngest sources = .ok st) : GoodStore st.store := by
  refine foldl_sources_good sources initState st hlat ?_ ?_ h
  · intro c recs hf
    cases hf
  · intro _
    exact ⟨rfl, rfl⟩

/-! ## Pass-2 characterization -/

theorem lookupEntry_cons (e : (Nat × Nat) × CellEntry)
    (t : List ((Nat × Nat) × CellEntry)) (c : Nat × Nat) :
    lookupEntry (e :: t) c = if e.1 = c then some e.2 else lookupEntry t c := rfl

theorem lookupEntry_concat (l : List ((Nat × Nat) × CellEntry))
    (e : (Nat × Nat) × CellEntry) (c : Nat × Nat) :
    lookupEntry (l ++ [e]) c = (match lookupEntry l c with
      | some v => some v
      | none => if e.1 = c then some e.2 else none) := by
  induction l with
  | nil => rfl
  | cons f t ih =>
    by_cases hf : f.1 = c
    · simp [lookupEntry_cons, hf]
    · simp only [List.cons_append, lookupEntry_cons, if_neg hf]
      exact ih

/-- `k ↦ (k / 360, k % 360)` is injective. -/
theorem cell_key_inj {k k' : Nat} (h : (k' / 360, k' % 360) = (k / 360, k % 360)) :
    k' = k := by
  have h1 : k' / 360 = k / 360 := congrArg Prod.fst h
  have h2 : k' % 360 = k % 360 := congrArg Prod.snd h
  omega

theorem encodeCellAux_none_bias (i j : Int) :
    ∀ (recs : List (List Pt)) (acc : List Bool) (ns nv : Nat),
      (encodeCellAux i j recs acc ns nv).2.2.2 = none →
      ∀ r ∈ recs, r.length ≠ 0 → biasInRange r := by
  intro recs
  induction recs with
  | nil => intro acc ns nv _ r hr; cases hr
  | cons q qs ih =>
    intro acc ns nv hnone r hr hrn
    by_cases hz : q.length = 0
    · rw [encodeCellAux, if_pos hz] at hnone
      rcases List.mem_cons.mp hr with rfl | hr'
      · exact absurd hz hrn
      · exact ih acc ns nv hnone r hr' hrn
    · rw [encodeCellAux, if_neg hz] at hnone
      by_cases hb : biasInRange q
      · rw [encodeSegment_ok_of_biasInRange hb] at hnone
        rcases List.mem_cons.mp hr with rfl | hr'
        · exact hb
        · exact ih _ _ _ hnone r hr' hrn
      · rcases encodeSegment_error_of_not hb i j with ⟨herr, _⟩ | ⟨herr, _⟩ <;>
          rw [herr] at hnone <;> cases hnone

theorem pass2Go_append (store : Store) (ks1 ks2 : List Nat) (out : OutFile) :
    pass2Go store (ks1 ++ ks2) out = (match pass2Go store ks1 out with
      | .error e => .error e
      | .ok out1 => pass2Go store ks2 out1) := by
  induction ks1 generalizing out with
  | nil => rfl
  | cons k ks ih =>
    rw [List.cons_append, pass2Go, pass2Go]
    rcases pass2Cell store out (k / 360) (k % 360) with e | out1
    · rfl
    · exact ih out1

theorem pass2Go_mono (store : Store) :
    ∀ (ks : List Nat) (out out' : OutFile),
      pass2Go store ks out = .ok out' →
      ∀ c v, lookupEntry out.patched c = some v →
        lookupEntry out'.patched c = some v := by
  intro ks
  induction ks with
  | nil =>
    intro out out' h c v hv
    cases Except.ok.inj h
    exact hv
  | cons k ks ih =>
    intro out out' h c v hv
    rw [pass2Go] at h
    rcases hc : pass2Cell store out (k / 360) (k % 360) with e | out1
    · rw [hc] at h
      exact (nomatch h)
    · rw [hc] at h
      refine ih out1 out' h c v ?_
      unfold pass2Cell at hc
      split at hc
      · cases Except.ok.inj hc
        exact hv
      · split at hc
        · cases hc
        · cases Except.ok.inj hc
          rw [lookupEntry_concat, hv]

theorem pass2Go_untouched (store : Store) :
    ∀ (ks : List Nat) (out out' : OutFile),
      pass2Go store ks out = .ok out' →
      ∀ c : Nat × Nat, (∀ k ∈ ks, (k / 360, k % 360) ≠ c) →
        lookupEntry out'.patched c = lookupEntry out.patched c := by
  intro ks
  induction ks with
  | nil =>
    intro out out' h c _
    cases Except.ok.inj h
    rfl
  | cons k ks ih =>
    intro out out' h c hne
    rw [pass2Go] at h
    rcases hc : pass2Cell store out (k / 360) (k % 360) with e | out1
    · rw [hc] at h
      exact (nomatch h)
    · rw [hc] at h
      have hrest := ih out1 out' h c fun q hq => hne q (List.mem_cons_of_mem _ hq)
      rw [hrest]
      unfold pass2Cell at hc
      split at hc
      · cases Except.ok.inj hc
        rfl
      · split at hc
        · cases hc
        · cases Except.ok.inj hc
          rw [lookupEntry_concat]
          rcases lookupEntry out.patched c with _ | v
          · rw [if_neg (hne k (List.mem_cons_self _ _))]
          · rfl

theorem pass2Go_keys (store : Store) :
    ∀ (ks : List Nat) (out out' : OutFile),
      pass2Go store ks out = .ok out' →
      ∀ c, lookupEntry out'.patched c ≠ none →
        lookupEntry out.patched c ≠ none ∨ ∃ k ∈ ks, c = (k / 360, k % 360) := by
  intro ks
  induction ks with
  | nil =>
    intro out out' h c hc
    cases Except.ok.inj h
    exact Or.inl hc
  | cons k ks ih =>
    intro out out' h c hcne
    rw [pass2Go] at h
    rcases hc : pass2Cell store out (k / 360) (k % 360) with e | out1
    · rw [hc] at h
      exact (nomatch h)
    · rw [hc] at h
      rcases ih out1 out' h c hcne with h1 | ⟨q, hq, hqc⟩
      · unfold pass2Cell at hc
        split at hc
        · cases Except.ok.inj hc
          exact Or.inl h1
        · split at hc
          · cases hc
          · cases Except.ok.inj hc
            rw [lookupEntry_concat] at h1
            rcases hl : lookupEntry out.patched c with _ | v
            · rw [hl] at h1
              by_cases hkc : ((k / 360 : Nat), (k % 360 : Nat)) = c
              · exact Or.inr ⟨k, List.mem_cons_self _ _, hkc.symm⟩
              · rw [if_neg hkc] at h1
                exact absurd rfl h1
            · exact Or.inl (fun hx => nomatch hx)
      · exact Or.inr ⟨q, List.mem_cons_of_mem _ hq, hqc⟩

theorem storeFind_mem {store : Store} {c : Int × Int} {recs : List (List Pt)}
    (h : storeFind store c = some recs) : (c, recs) ∈ store := by
  induction store with
  | nil => cases h
  | cons e t ih =>
    rw [storeFind_cons] at h
    by_cases he : e.1 = c
    · rw [if_pos he] at h
      have h2 := Option.some.inj h
      have he2 : e = (c, recs) := Prod.ext he h2
      rw [he2]
      exact List.mem_cons_self _ _
    · rw [if_neg he] at h
      exact List.mem_cons_of_mem _ (ih h)

theorem pass2Cell_none {store : Store} {out : OutFile} {i j : Nat}
    (hf : storeFind store ((j : Nat), (i : Nat)) = none) :
    pass2Cell store out i j = .ok out := by
  unfold pass2Cell
  rw [hf]

theorem pass2Cell_some {store : Store} {out : OutFile} {i j : Nat}
    {recs : List (List Pt)}
    (hf : storeFind store ((j : Nat), (i : Nat)) = some recs) :
    pass2Cell store out i j = (match encodeCell ((i : Nat) : Int) ((j : Nat) : Int) recs with
      | (_, _, _, some e) => Except.error e
      | (acc, ns, nv, none) => Except.ok
          { patched := out.patched ++
              [((i, j), ⟨headerBytes + out.body.length / 8, ns, nv⟩)],
            body := out.body ++ acc }) := by
  unfold pass2Cell
  rw [hf]

/-- `pass2` succeeds whenever every staged nonzero record passes the bias
checks. -/
theorem pass2Go_ok (store : Store)
    (hstore : ∀ e ∈ store, ∀ r ∈ e.2, r.length ≠ 0 → biasInRange r) :
    ∀ (ks : List Nat) (out : OutFile), ∃ out', pass2Go store ks out = .ok out' := by
  intro ks
  induction ks with
  | nil => intro out; exact ⟨out, rfl⟩
  | cons k ks ih =>
    intro out
    rw [pass2Go]
    rcases hf : storeFind store ((k % 360 : Nat), (k / 360 : Nat)) with _ | recs
    · rw [pass2Cell_none hf]
      exact ih out
    · have hbias : ∀ r ∈ recs, r.length ≠ 0 → biasInRange r :=
        hstore _ (storeFind_mem hf)
      have henc := encodeCellAux_ok ((k / 360 : Nat) : Int) ((k % 360 : Nat) : Int)
        recs [] 0 0 hbias
      rw [pass2Cell_some hf, show encodeCell ((k / 360 : Nat) : Int)
          ((k % 360 : Nat) : Int) recs = encodeCellAux ((k / 360 : Nat) : Int)
          ((k % 360 : Nat) : Int) recs [] 0 0 from rfl, henc]
      exact ih _

theorem pass2_ok (store : Store)
    (hstore : ∀ e ∈ store, ∀ r ∈ e.2, r.length ≠ 0 → biasInRange r) :
    ∃ out, pass2 store = .ok out :=
  pass2Go_ok store hstore (List.range 64800) ⟨[], []⟩

/-- What `pass2` writes into each index entry: never-staged cells stay
zeroed; staged cells are patched with the counts over their nonzero
records. -/
theorem pass2_entry {store : Store} {out : OutFile}
    (h : pass2 store = .ok out) (k : Nat) (hk : k < 64800) :
    (storeFind store ((k % 360 : Nat), (k / 360 : Nat)) = none ∧
      entryAt out (k / 360) (k % 360) = zeroEntry) ∨
    (∃ recs a, storeFind store ((k % 360 : Nat), (k / 360 : Nat)) = some recs ∧
      (∀ r ∈ recs, r.length ≠ 0 → biasInRange r) ∧
      entryAt out (k / 360) (k % 360) = ⟨a, nsOf recs, nvOf recs⟩) := by
  unfold pass2 at h
  have hsplit : List.range 64800 =
      (List.range' 0 k ++ [k]) ++ List.range' (k + 1) (64800 - (k + 1)) := by
    have hmid : ([k] : List Nat) ++ List.range' (k + 1) (64800 - (k + 1)) =
        List.range' k (64800 - k) := by
      rw [show 64800 - k = (64800 - (k + 1)) + 1 from by omega, List.range'_succ]
      rfl
    rw [List.range_eq_range', List.append_assoc, hmid]
    have happ := List.range'_append_1 0 k (64800 - k)
    rw [Nat.zero_add, show 64800 - k + k = 64800 from by omega] at happ
    exact happ.symm
  rw [hsplit, pass2Go_append] at h
  rcases h1 : pass2Go store (List.range' 0 k ++ [k]) ⟨[], []⟩ with e | out1
  · rw [h1] at h
    exact (nomatch h)
  · rw [h1] at h
    -- out1 is the state just after processing cell k
    rw [pass2Go_append] at h1
    rcases h0 : pass2Go store (List.range' 0 k) ⟨[], []⟩ with e | outPre
    · rw [h0] at h1
      exact (nomatch h1)
    · rw [h0] at h1
      -- entry (k/360, k%360) is unpatched in outPre
      have hunp : lookupEntry outPre.patched (k / 360, k % 360) = none := by
        by_contra hne
        rcases pass2Go_keys store _ _ _ h0 _ hne with hinit | ⟨q, hq, hqc⟩
        · exact hinit rfl
        · have hq' : q < k := by
            have := List.mem_range'_1.mp hq
            omega
          have := cell_key_inj hqc.symm
          omega
      -- h1 : pass2Go store [k] outPre = .ok out1
      replace h1 : (match pass2Cell store outPre (k / 360) (k % 360) with
          | Except.error e => (Except.error e : Except EncErr OutFile)
          | Except.ok o => pass2Go store [] o) = Except.ok out1 := h1
      rcases hc : pass2Cell store outPre (k / 360) (k % 360) with e | outK
      · rw [hc] at h1
        exact (nomatch h1)
      · rw [hc] at h1
        have hout1 : outK = out1 := Except.ok.inj h1
        subst hout1
        have hafter : ∀ q ∈ List.range' (k + 1) (64800 - (k + 1)),
            (q / 360, q % 360) ≠ ((k / 360 : Nat), (k % 360 : Nat)) := by
          intro q hq hqc
          have hq' : k + 1 ≤ q := (List.mem_range'_1.mp hq).1
          have := cell_key_inj hqc
          omega
        unfold pass2Cell at hc
        split at hc
        · -- cell not staged: no patch, no bytes
          rename_i hfnone
          cases Except.ok.inj hc
          left
          refine ⟨hfnone, ?_⟩
          unfold entryAt
          rw [pass2Go_untouched store _ _ _ h _ hafter, hunp]
          rfl
        · split at hc
          · cases hc
          · rename_i recs hfsome x acc ns nv henc
            cases Except.ok.inj hc
            right
            have hbias : ∀ r ∈ recs, r.length ≠ 0 → biasInRange r := by
              have hnb := encodeCellAux_none_bias ((k / 360 : Nat) : Int)
                ((k % 360 : Nat) : Int) recs [] 0 0
              unfold encodeCell at henc
              rw [henc] at hnb
              exact hnb rfl
            refine ⟨recs, headerBytes + outPre.body.length / 8, hfsome, hbias, ?_⟩
            have hcnt := encodeCellAux_ok ((k / 360 : Nat) : Int)
              ((k % 360 : Nat) : Int) recs [] 0 0 hbias
            unfold encodeCell at henc
            rw [henc] at hcnt
            simp only [Prod.mk.injEq] at hcnt
            obtain ⟨-, hns0, hnv0, -⟩ := hcnt
            have hns : ns = nsOf recs := by omega
            have hnv : nv = nvOf recs := by omega
            have hlook : lookupEntry (outPre.patched ++ [((k / 360, k % 360),
                ⟨headerBytes + outPre.body.length / 8, ns, nv⟩)]) (k / 360, k % 360) =
                some ⟨headerBytes + outPre.body.length / 8, ns, nv⟩ := by
              rw [lookupEntry_concat, hunp]
              rw [if_pos rfl]
            have hfinal := pass2Go_mono store _ _ _ h (k / 360, k % 360) _ hlook
            unfold entryAt
            rw [hfinal]
            simp only [Option.getD_some]
            rw [← hns, ← hnv]

/-! ## Output-file layout (header density) -/

theorem goodRecs_nsOf {recs : List (List Pt)} (h : GoodRecs recs) :
    1 ≤ nsOf recs := by
  obtain ⟨r, hr, hne⟩ := h
  have hmem : r ∈ nonzeroRecs recs :=
    List.mem_filter.mpr
      ⟨hr, decide_eq_true fun h0 => hne (List.length_eq_zero.mp h0)⟩
  exact List.length_pos_of_mem hmem

theorem flatten_map_length (f : Nat → List Bool) (L : Nat)
    (hf : ∀ k, (f k).length = L) :
    ∀ l : List Nat, ((l.map f).flatten).length = l.length * L := by
  intro l
  induction l with
  | nil => simp
  | cons k t ih =>
    rw [List.map_cons, List.flatten_cons, List.length_append, ih, hf,
      List.length_cons]
    ring

theorem flatten_map_slice (f : Nat → List Bool) (L : Nat)
    (hf : ∀ k, (f k).length = L) :
    ∀ (n k s : Nat), k < n →
      ((((List.range' s n).map f).flatten).drop (L * k)).take L = f (s + k) := by
  intro n
  induction n with
  | zero => intro k s hk; omega
  | succ m ih =>
    intro k s hk
    rw [List.range'_succ, List.map_cons, List.flatten_cons]
    cases k with
    | zero =>
      rw [Nat.mul_zero, List.drop_zero, Nat.add_zero, ← hf s]
      exact List.take_left _ _
    | succ k2 =>
      rw [show L * (k2 + 1) = (f s).length + L * k2 from by rw [hf]; ring,
        List.drop_append, ih k2 (s + 1) (by omega)]
      congr 1
      omega

theorem headerBits_eq (out : OutFile) :
    headerBits out = ((List.range' 0 64800).map fun k =>
      entryBits (entryAt out (k / 360) (k % 360))).flatten := by
  unfold headerBits
  rw [List.range_eq_range']

theorem headerBits_length (out : OutFile) :
    (headerBits out).length = 6220800 := by
  rw [headerBits_eq,
    flatten_map_length _ 96 (fun k => entryBits_length _) (List.range' 0 64800),
    List.length_range']

theorem serialize_length (ver : List Bool) (out : OutFile)
    (hver : ver.length = 1024) :
    (serialize ver out).length = 8 * headerBytes + out.body.length := by
  unfold serialize headerBytes
  rw [List.length_append, List.length_append, hver, headerBits_length]

/-- The 96 bits at bit offset `8 * (128 + 12 * (i*360 + j))` of the
serialized file are exactly cell `(i, j)`'s index entry: the table is
row-major, 12 bytes per entry, starting at byte 128. -/
theorem serialize_entry (ver : List Bool) (out : OutFile)
    (hver : ver.length = 1024) {i j : Nat} (hi : i < 180) (hj : j < 360) :
    ((serialize ver out).drop (8 * (128 + 12 * (i * 360 + j)))).take 96 =
      entryBits (entryAt out i j) := by
  have hk : i * 360 + j < 64800 := by omega
  unfold serialize
  rw [show 8 * (128 + 12 * (i * 360 + j)) = ver.length + 96 * (i * 360 + j) from by
    rw [hver]; ring]
  rw [List.append_assoc, List.drop_append]
  rw [List.drop_append_eq_append_drop, List.take_append_eq_append_take]
  have hd : ((headerBits out).drop (96 * (i * 360 + j))).length =
      6220800 - 96 * (i * 360 + j) := by
    rw [List.length_drop, headerBits_length]
  rw [show 96 - ((headerBits out).drop (96 * (i * 360 + j))).length = 0 from by
    rw [hd]; omega]
  rw [List.take_zero, List.append_nil, headerBits_eq]
  have hs := flatten_map_slice
    (fun k => entryBits (entryAt out (k / 360) (k % 360))) 96
    (fun k => entryBits_length _) 64800 (i * 360 + j) 0 hk
  simp only at hs
  rw [hs]
  rw [show (0 + (i * 360 + j)) / 360 = i from by omega,
    show (0 + (i * 360 + j)) % 360 = j from by omega]

/-! ## Sentinel folds are true extrema under a successful encode -/

theorem foldl_min_mem : ∀ (l : List Int) (a : Int),
    l.foldl min a ∈ l ∨ l.foldl min a = a := by
  intro l
  induction l with
  | nil => intro a; exact Or.inr rfl
  | cons x t ih =>
    intro a
    rw [List.foldl_cons]
    rcases ih (min a x) with h | h
    · exact Or.inl (List.mem_cons_of_mem _ h)
    · rcases min_cases a x with ⟨he, -⟩ | ⟨he, -⟩
      · exact Or.inr (by rw [h, he])
      · exact Or.inl (by rw [h, he]; exact List.mem_cons_self _ _)

theorem foldl_max_mem : ∀ (l : List Int) (a : Int),
    l.foldl max a ∈ l ∨ l.foldl max a = a := by
  intro l
  induction l with
  | nil => intro a; exact Or.inr rfl
  | cons x t ih =>
    intro a
    rw [List.foldl_cons]
    rcases ih (max a x) with h | h
    · exact Or.inl (List.mem_cons_of_mem _ h)
    · rcases max_cases a x with ⟨he, -⟩ | ⟨he, -⟩
      · exact Or.inr (by rw [h, he])
      · exact Or.inl (by rw [h, he]; exact List.mem_cons_self _ _)

/-- Under a successful encode the sentinel `MIN`/`MAX` folds (init
`99999999` / `-99999999`) are the true minimum and maximum of the
(nonempty) per-axis delta lists: a surviving sentinel would fail the bias
range check. -/
theorem sentinel_folds_spec {i j : Int} {seg : List Pt} {bs : List Bool}
    (h : encodeSegment i j seg = .ok bs) :
    (minFold (dxs seg) ∈ dxs seg ∧ ∀ d ∈ dxs seg, minFold (dxs seg) ≤ d) ∧
    (maxFold (dxs seg) ∈ dxs seg ∧ ∀ d ∈ dxs seg, d ≤ maxFold (dxs seg)) ∧
    (minFold (dys seg) ∈ dys seg ∧ ∀ d ∈ dys seg, minFold (dys seg) ≤ d) ∧
    (maxFold (dys seg) ∈ dys seg ∧ ∀ d ∈ dys seg, d ≤ maxFold (dys seg)) := by
  obtain ⟨hbx1, hbx2, hby1, hby2⟩ := encodeSegment_ok_elim h
  have hlen2 := encodeSegment_ok_length_ge_two h
  obtain ⟨p, q, t, rfl⟩ : ∃ p q t, seg = p :: q :: t := by
    cases seg with
    | nil => simp at hlen2
    | cons p rest =>
      cases rest with
      | nil => simp at hlen2
      | cons q t => exact ⟨p, q, t, rfl⟩
  have hdx0 : (q.1 - p.1) ∈ dxs (p :: q :: t) := by
    rw [dxs_cons_cons]; exact List.mem_cons_self _ _
  have hdy0 : (q.2 - p.2) ∈ dys (p :: q :: t) := by
    rw [dys_cons_cons]; exact List.mem_cons_self _ _
  have hmb : maxBias = 131071 := rfl
  refine ⟨⟨?_, fun d hd => minFold_le_mem hd⟩,
    ⟨?_, fun d hd => mem_le_maxFold hd⟩,
    ⟨?_, fun d hd => minFold_le_mem hd⟩,
    ⟨?_, fun d hd => mem_le_maxFold hd⟩⟩
  · rcases foldl_min_mem (dxs (p :: q :: t)) 99999999 with hm | hm
    · exact hm
    · exfalso
      have hbx : biasX (p :: q :: t) = -(minFold (dxs (p :: q :: t))) := rfl
      have hme : minFold (dxs (p :: q :: t)) = 99999999 := hm
      omega
  · rcases foldl_max_mem (dxs (p :: q :: t)) (-99999999) with hm | hm
    · exact hm
    · exfalso
      have hme : maxFold (dxs (p :: q :: t)) = -99999999 := hm
      have h1 : minFold (dxs (p :: q :: t)) ≤ q.1 - p.1 := minFold_le_mem hdx0
      have h2 : q.1 - p.1 ≤ maxFold (dxs (p :: q :: t)) := mem_le_maxFold hdx0
      have hbx : biasX (p :: q :: t) = -(minFold (dxs (p :: q :: t))) := rfl
      omega
  · rcases foldl_min_mem (dys (p :: q :: t)) 99999999 with hm | hm
    · exact hm
    · exfalso
      have hby : biasY (p :: q :: t) = -(minFold (dys (p :: q :: t))) := rfl
      have hme : minFold (dys (p :: q :: t)) = 99999999 := hm
      omega
  · rcases foldl_max_mem (dys (p :: q :: t)) (-99999999) with hm | hm
    · exact hm
    · exfalso
      have hme : maxFold (dys (p :: q :: t)) = -99999999 := hm
      have h1 : minFold (dys (p :: q :: t)) ≤ q.2 - p.2 := minFold_le_mem hdy0
      have h2 : q.2 - p.2 ≤ maxFold (dys (p :: q :: t)) := mem_le_maxFold hdy0
      have hby : biasY (p :: q :: t) = -(minFold (dys (p :: q :: t))) := rfl
      omega

/-! ## The ten claims -/

/-- C1: for every segment the encoder packs without a fatal error —
the bias range checks pass and the `int32_t` size computation of source
line 623 does not overflow (`sizeBits seg < 2^31`; on overflow the wrapped
size makes the `calloc` at line 628 fail and the program exits, emitting no
block) — with coordinates in the declared ranges (`x ∈ [0, 35999999]`,
`y ∈ [0, 17999999]`), decoding the block by the same field order and
widths reproduces the exact original vertex sequence.  The size bound
forces `count ≤ 1073741824`, so `count_bits = round(log2 count) + 1 ≤ 31`
fits the 5-bit width header, and the stored widths suffice for every
packed field. -/
theorem c1_round_trip {i j : Int} {seg : List Pt} {bs : List Bool}
    (h : encodeSegment i j seg = .ok bs)
    (hsize : sizeBits seg < 2 ^ 31)
    (hxr : ∀ p ∈ seg, 0 ≤ p.1 ∧ p.1 ≤ 35999999)
    (hyr : ∀ p ∈ seg, 0 ≤ p.2 ∧ p.2 ≤ 17999999) :
    decodeSegment bs = seg := by
  have hlob : 1 ≤ lonOffsetBits seg := by
    unfold lonOffsetBits width
    omega
  have hlab : 1 ≤ latOffsetBits seg := by
    unfold latOffsetBits width
    omega
  have hmul : (seg.length - 1) * 2 ≤
      (seg.length - 1) * (lonOffsetBits seg + latOffsetBits seg) :=
    Nat.mul_le_mul_left _ (by omega)
  have hsz : (seg.length - 1) * (lonOffsetBits seg + latOffsetBits seg) ≤
      sizeBits seg := by
    unfold sizeBits
    omega
  have hcnt : seg.length ≤ 1518500249 := by
    have h31 : (2 : Nat) ^ 31 = 2147483648 := by norm_num
    omega
  exact decodeSegment_encodeSegment h hcnt hxr hyr

theorem c1_round_trip_witness :
    encodeSegment 0 0 [((0 : Int), 0), (3, 4)] =
      .ok (segBlock [((0 : Int), 0), (3, 4)]) ∧
    decodeSegment (segBlock [((0 : Int), 0), (3, 4)]) = [((0 : Int), 0), (3, 4)] :=
  ⟨rfl, c1_round_trip (show encodeSegment 0 0 [((0 : Int), 0), (3, 4)] =
    .ok (segBlock [((0 : Int), 0), (3, 4)]) from rfl)
    (by decide) (by decide) (by decide)⟩

/-- C2: every successfully encoded block is the MSB-first concatenation of
the fields in the source's exact order and widths — `count_bits(5) ·
lon_offset_bits(5) · lat_offset_bits(5) · count(count_bits) ·
(bias_x+131071)(18) · (bias_y+131071)(18) · x0(26) · y0(25) ·
(dx_k+bias_x)(lon_offset_bits) · (dy_k+bias_y)(lat_offset_bits) for
k = 1..count−1` (this is `packFields (fieldsOf seg)`) — followed by zero
padding, and the block's byte length is `⌊totalBits/8⌋ + 1` with
`totalBits = 15 + count_bits + lon_offset_bits + lat_offset_bits + 18 + 18
+ 26 + 25 + (count−1)(lon_offset_bits + lat_offset_bits)`. -/
theorem c2_block_layout {i j : Int} {seg : List Pt} {bs : List Bool}
    (h : encodeSegment i j seg = .ok bs) :
    bs = packFields (fieldsOf seg) ++
        List.replicate (8 * sizeBytes seg - totalWidth (fieldsOf seg)) false ∧
    sizeBits seg = 15 + countBits seg + lonOffsetBits seg + latOffsetBits seg +
        18 + 18 + 26 + 25 +
        (seg.length - 1) * (lonOffsetBits seg + latOffsetBits seg) ∧
    bs.length = 8 * (sizeBits seg / 8 + 1) :=
  ⟨encodeSegment_ok_eq h, by unfold sizeBits; ring,
    (encodeSegment_ok_length h (totalWidth_fieldsOf_le seg)).trans rfl⟩

theorem c2_block_layout_witness :
    ∃ bs, encodeSegment 0 0 [((0 : Int), 0), (3, 4)] = .ok bs ∧
      bs.length = 8 * (sizeBits [((0 : Int), 0), (3, 4)] / 8 + 1) :=
  ⟨segBlock [((0 : Int), 0), (3, 4)], rfl,
    (c2_block_layout (show encodeSegment 0 0 [((0 : Int), 0), (3, 4)] =
      .ok (segBlock [((0 : Int), 0), (3, 4)]) from rfl)).2.2⟩

/-- C3: for every successfully encoded segment the three field widths are
`round(log2 n) + 1` with nearest-integer rounding — over the count, and
over `range_x`/`range_y`, where each range is the `MAX − MIN` fold over
the per-axis deltas floored at 1, and (because a surviving fold sentinel
would fail the bias check) those folds are the true minimum and maximum of
the segment's delta lists. -/
theorem c3_width_formula {i j : Int} {seg : List Pt} {bs : List Bool}
    (h : encodeSegment i j seg = .ok bs) :
    ((countBits seg : ℤ) = round (Real.logb 2 (seg.length : ℝ)) + 1 ∧
     (lonOffsetBits seg : ℤ) =
        round (Real.logb 2 (((rangeX seg).toNat : ℕ) : ℝ)) + 1 ∧
     (latOffsetBits seg : ℤ) =
        round (Real.logb 2 (((rangeY seg).toNat : ℕ) : ℝ)) + 1) ∧
    (rangeX seg = if maxFold (dxs seg) - minFold (dxs seg) = 0 then 1
        else maxFold (dxs seg) - minFold (dxs seg)) ∧
    (rangeY seg = if maxFold (dys seg) - minFold (dys seg) = 0 then 1
        else maxFold (dys seg) - minFold (dys seg)) ∧
    ((minFold (dxs seg) ∈ dxs seg ∧ ∀ d ∈ dxs seg, minFold (dxs seg) ≤ d) ∧
     (maxFold (dxs seg) ∈ dxs seg ∧ ∀ d ∈ dxs seg, d ≤ maxFold (dxs seg)) ∧
     (minFold (dys seg) ∈ dys seg ∧ ∀ d ∈ dys seg, minFold (dys seg) ≤ d) ∧
     (maxFold (dys seg) ∈ dys seg ∧ ∀ d ∈ dys seg, d ≤ maxFold (dys seg))) := by
  have hspec := sentinel_folds_spec h
  obtain ⟨⟨hxmin_mem, hxmin_le⟩, ⟨hxmax_mem, hxmax_ge⟩, ⟨hymin_mem, hymin_le⟩,
    ⟨hymax_mem, hymax_ge⟩⟩ := hspec
  have hlen2 := encodeSegment_ok_length_ge_two h
  have hxmm : minFold (dxs seg) ≤ maxFold (dxs seg) := hxmin_le _ hxmax_mem
  have hymm : minFold (dys seg) ≤ maxFold (dys seg) := hymin_le _ hymax_mem
  have hrx1 : 1 ≤ rangeX seg := by
    rw [rangeX_def]
    split
    · norm_num
    · rename_i hne
      omega
  have hry1 : 1 ≤ rangeY seg := by
    rw [rangeY_def]
    split
    · norm_num
    · rename_i hne
      omega
  refine ⟨⟨?_, ?_, ?_⟩, rangeX_def seg, rangeY_def seg,
    ⟨hxmin_mem, hxmin_le⟩, ⟨hxmax_mem, hxmax_ge⟩,
    ⟨hymin_mem, hymin_le⟩, ⟨hymax_mem, hymax_ge⟩⟩
  · exact width_eq_round_logb (by omega)
  · exact width_eq_round_logb (by omega)
  · exact width_eq_round_logb (by omega)

theorem c3_width_formula_witness :
    (countBits [((0 : Int), 0), (3, 4)] : ℤ) =
      round (Real.logb 2 (([((0 : Int), 0), (3, 4)] : List Pt).length : ℝ)) + 1 :=
  (c3_width_formula (show encodeSegment 0 0 [((0 : Int), 0), (3, 4)] =
    .ok (segBlock [((0 : Int), 0), (3, 4)]) from rfl)).1.1

/-- C4: when a vertex's cell differs from the previous vertex's cell and
`start_segment` is false, the previous point is appended to the current
segment, that segment is closed (written) under the old cell, and a new
segment starts under the new cell seeded with that same previous point —
the boundary point is present in both segments. -/
theorem c4_cell_split (st : IngestState) (rawx rawy : ℚ)
    (hprev : 0 ≤ st.latdeg0)
    (hdiff : truncInt (normLat rawy) ≠ st.latdeg0 ∨
      truncInt (normLon rawx) ≠ st.londeg0)
    (c0 : Int × Int) (hhandle : st.handle = some c0) :
    stepVertex st false rawx rawy = .ok
      { store := storeOpen
          (storeAppend st.store c0
            (st.buf ++ [(nint (st.lon0 * 100000), nint (st.lat0 * 100000))]))
          (truncInt (normLon rawx), truncInt (normLat rawy)),
        handle := some (truncInt (normLon rawx), truncInt (normLat rawy)),
        buf := [(nint (st.lon0 * 100000), nint (st.lat0 * 100000)),
                (nint (normLon rawx * 100000), nint (normLat rawy * 100000))],
        londeg0 := truncInt (normLon rawx), latdeg0 := truncInt (normLat rawy),
        lon0 := normLon rawx, lat0 := normLat rawy } :=
  stepVertex_cell_split st rawx rawy hprev hdiff c0 hhandle

/-- Evaluating `truncInt` through `Int.floor_eq_iff` (rational arithmetic
does not reduce definitionally, so concrete instances are proved, not
computed). -/
theorem truncInt_eq {q : ℚ} {z : ℤ} (h0 : 0 ≤ q) (h1 : (z : ℚ) ≤ q)
    (h2 : q < z + 1) : truncInt q = z := by
  unfold truncInt
  rw [if_pos h0]
  exact Int.floor_eq_iff.mpr ⟨h1, h2⟩

theorem c4_lon_eval : truncInt (normLon (-337 / 2)) = 11 := by
  have hn : normLon (-337 / 2) = 23 / 2 := by
    unfold normLon
    rw [if_neg (by norm_num)]
    norm_num
  rw [hn]
  exact truncInt_eq (by norm_num) (by norm_num) (by norm_num)

def c4St : IngestState :=
  { store := [((10, 10), [])], handle := some (10, 10),
    buf := [(1050000, 1050000)], londeg0 := 10, latdeg0 := 10,
    lon0 := 21 / 2, lat0 := 21 / 2 }

theorem c4_cell_split_witness :
    ∃ st', stepVertex c4St false (-337 / 2) (-159 / 2) = .ok st' :=
  ⟨_, c4_cell_split c4St (-337 / 2) (-159 / 2) (by decide)
    (Or.inr (by rw [c4_lon_eval]; decide)) (10, 10) rfl⟩

/-- C5 (amended): a drained segment with `count = 1` has no deltas, so the
`MIN` sentinel survives: `bias_x = −99999999`, which fails the bias range
check and aborts the run — the `range = 1, bias = 0` convention is **not**
what the code does, and encoding does not complete normally. -/
theorem c5_one_vertex (i j : Int) (seg : List Pt) (h : seg.length = 1) :
    biasX seg = -99999999 ∧
    encodeSegment i j seg = .error (.lonBias i j (-99999999)) := by
  obtain ⟨p, rfl⟩ : ∃ p, seg = [p] := by
    cases seg with
    | nil => simp at h
    | cons p t =>
      cases t with
      | nil => exact ⟨p, rfl⟩
      | cons q t2 => simp at h
  have hb : biasX [p] = -99999999 := rfl
  refine ⟨hb, ?_⟩
  unfold encodeSegment
  rw [hb]
  rw [if_pos (Or.inr (by decide))]

theorem c5_one_vertex_witness :
    biasX [((5 : Int), 7)] = -99999999 ∧
    encodeSegment 0 0 [((5 : Int), 7)] = .error (.lonBias 0 0 (-99999999)) :=
  c5_one_vertex 0 0 [((5 : Int), 7)] rfl

/-- C5, counterexample: the one-vertex segment `[(100, 200)]` is rejected
with the sentinel bias `−99999999` instead of completing normally with
`range = 1, bias = 0`. -/
theorem c5_counterexample :
    encodeSegment 0 0 [((100 : Int), 200)] = .error (.lonBias 0 0 (-99999999)) ∧
    biasX [((100 : Int), 200)] ≠ 0 := by
  exact ⟨rfl, by decide⟩

/-- C6 (amended): while draining one cell, a segment whose `bias_x` or
`bias_y` exceeds ±131071 aborts the run with the offending cell
coordinates and bias value, **before that segment's bytes** are appended —
but the blocks of the cell's earlier in-range segments have already been
appended (`cellBlocks pre`), so the abort is not before *any* bytes of the
cell; if every segment's biases are in range, the cell encodes with no
abort. -/
theorem c6_bias_abort (i j : Int) (recs : List (List Pt)) :
    ((∀ r ∈ recs, r.length ≠ 0 → biasInRange r) →
      encodeCell i j recs = (cellBlocks recs, nsOf recs, nvOf recs, none)) ∧
    (∀ pre bad post, recs = pre ++ bad :: post → bad.length ≠ 0 →
      ¬biasInRange bad → (∀ r ∈ pre, r.length ≠ 0 → biasInRange r) →
      ∃ e, encodeCell i j recs =
          (cellBlocks pre, nsOf pre + 1, nvOf pre + bad.length, some e) ∧
        ((e = .lonBias i j (biasX bad) ∧
            (biasX bad > maxBias ∨ biasX bad < -maxBias)) ∨
         (e = .latBias i j (biasY bad) ∧
            (biasY bad > maxBias ∨ biasY bad < -maxBias)))) := by
  constructor
  · intro hall
    have hok := encodeCellAux_ok i j recs [] 0 0 hall
    unfold encodeCell
    rw [hok]
    simp
  · intro pre bad post hrecs hbadn hbad hpre
    subst hrecs
    obtain ⟨e, heq, hcase⟩ :=
      encodeCellAux_error i j bad hbadn hbad pre post [] 0 0 hpre
    refine ⟨e, ?_, hcase⟩
    unfold encodeCell
    rw [heq]
    simp

theorem c6_bias_abort_witness :
    ∃ e, encodeCell 0 0 [[((0 : Int), 0), (3, 4)], [((0 : Int), 0), (200000, 0)]] =
        (cellBlocks [[((0 : Int), 0), (3, 4)]],
          nsOf [[((0 : Int), 0), (3, 4)]] + 1,
          nvOf [[((0 : Int), 0), (3, 4)]] +
            ([((0 : Int), 0), (200000, 0)] : List Pt).length,
          some e) ∧
      ((e = .lonBias 0 0 (biasX [((0 : Int), 0), (200000, 0)]) ∧
          (biasX [((0 : Int), 0), (200000, 0)] > maxBias ∨
            biasX [((0 : Int), 0), (200000, 0)] < -maxBias)) ∨
       (e = .latBias 0 0 (biasY [((0 : Int), 0), (200000, 0)]) ∧
          (biasY [((0 : Int), 0), (200000, 0)] > maxBias ∨
            biasY [((0 : Int), 0), (200000, 0)] < -maxBias))) :=
  (c6_bias_abort 0 0 [[((0 : Int), 0), (3, 4)], [((0 : Int), 0), (200000, 0)]]).2
    [[((0 : Int), 0), (3, 4)]] [((0 : Int), 0), (200000, 0)] [] rfl
    (by decide) (by decide) (by decide)

/-- C6, counterexample: a cell whose second segment overflows the bias
aborts with that segment's bias value, yet the first segment's block bytes
are already in the cell's appended output — the abort is not before *any*
bytes from that cell. -/
theorem c6_counterexample :
    (encodeCell 0 0 [[((0 : Int), 0), (3, 4)],
        [((0 : Int), 0), (200000, 0)]]).2.2.2 =
      some (.lonBias 0 0 (-200000)) ∧
    (encodeCell 0 0 [[((0 : Int), 0), (3, 4)],
        [((0 : Int), 0), (200000, 0)]]).1 ≠ [] := by
  exact ⟨rfl, by decide⟩

/-- C8: after a complete run (ingestion of sources with in-range latitudes
followed by pass 2), the serialized file has exactly `128 + 64800·12`
header bytes before the block area; the 12-byte entry of cell `(i, j)`
sits at byte `128 + 12·(i·360 + j)` (row-major by latitude then
longitude); and every staged cell's entry has `segmentCount ≥ 1`, so an
entry with `segmentCount = 0` is identically zero (address 0, vertex
count 0). -/
theorem c8_header_density (sources : List (List Shape)) (st : IngestState)
    (out : OutFile) (ver : List Bool)
    (hlat : ∀ src ∈ sources, ∀ sh ∈ src, LatOK sh.pts)
    (hing : runIngest sources = .ok st)
    (hout : pass2 st.store = .ok out)
    (hver : ver.length = 1024) :
    (serialize ver out).length = 8 * headerBytes + out.body.length ∧
    (∀ i j : Nat, i < 180 → j < 360 →
      ((serialize ver out).drop (8 * (128 + 12 * (i * 360 + j)))).take 96 =
        entryBits (entryAt out i j)) ∧
    (∀ i j : Nat, i < 180 → j < 360 →
      (entryAt out i j).nseg = 0 → entryAt out i j = zeroEntry) := by
  refine ⟨serialize_length ver out hver,
    fun i j hi hj => serialize_entry ver out hver hi hj, ?_⟩
  intro i j hi hj hz
  have hG := runIngest_goodStore hlat hing
  have hk : i * 360 + j < 64800 := by omega
  have hent := pass2_entry hout (i * 360 + j) hk
  rw [show (i * 360 + j) / 360 = i from by omega,
    show (i * 360 + j) % 360 = j from by omega] at hent
  rcases hent with ⟨-, hzero⟩ | ⟨recs, a, hfind, -, hentry⟩
  · exact hzero
  · exfalso
    have hgr : GoodRecs recs := hG _ _ hfind
    have h1 := goodRecs_nsOf hgr
    rw [hentry] at hz
    simp only at hz
    omega

theorem c8_header_density_witness :
    ∃ out, pass2 initState.store = .ok out ∧
      (serialize (List.replicate 1024 false) out).length =
        8 * headerBytes + out.body.length ∧
      ((entryAt out 0 0).nseg = 0 → entryAt out 0 0 = zeroEntry) := by
  obtain ⟨out, hout⟩ := pass2_ok initState.store (by decide)
  obtain ⟨h1, h2, h3⟩ := c8_header_density [] initState out
    (List.replicate 1024 false) (by simp) rfl hout (by rw [List.length_replicate])
  exact ⟨out, hout, h1, h3 0 0 (by norm_num) (by norm_num)⟩

/-- C9 (amended): for raw longitude in `[−180, 180]` and raw latitude in
`[−90, 90)` — the exact `+90` endpoint must be excluded, because
longitude's `== 360.0 → 180.0` clamp has no latitude counterpart — the
normalized cell indices satisfy `lonIdx ∈ [0, 359]` and
`latIdx ∈ [0, 179]`. -/
theorem c9_cell_range {rawx rawy : ℚ} (hx1 : -180 ≤ rawx) (hx2 : rawx ≤ 180)
    (hy1 : -90 ≤ rawy) (hy2 : rawy < 90) :
    0 ≤ lonDeg rawx ∧ lonDeg rawx ≤ 359 ∧ 0 ≤ latDeg rawy ∧ latDeg rawy ≤ 179 := by
  obtain ⟨h1, h2⟩ := lonDeg_range hx1 hx2
  obtain ⟨h3, h4⟩ := latDeg_range hy1 hy2
  exact ⟨h1, h2, h3, h4⟩

theorem c9_cell_range_witness :
    0 ≤ lonDeg 180 ∧ lonDeg 180 ≤ 359 ∧ 0 ≤ latDeg (-90) ∧ latDeg (-90) ≤ 179 :=
  c9_cell_range (by norm_num) (by norm_num) (by norm_num) (by norm_num)

/-- C9, counterexample: raw latitude `+90` — inside the claim's `[−90, 90]`
— normalizes to `180.0` with no clamp, so `latIdx = 180 ∉ [0, 179]`. -/
theorem c9_counterexample : latDeg 90 = 180 ∧ ¬(latDeg 90 ≤ 179) := by
  have h : latDeg 90 = 180 := by
    unfold latDeg normLat
    exact truncInt_eq (by norm_num) (by norm_num) (by norm_num)
  exact ⟨h, by omega⟩

/-- C10: a shape with fewer than two vertices is skipped before any staging
stream is opened, so when the first input source contains no shape with at
least two vertices the unconditional end-of-source flush writes through
the never-opened (`NULL`) handle — the fatal `nullWrite` condition is
reached. -/
theorem c10_null_flush (shapes : List Shape) (rest : List (List Shape))
    (h : ∀ sh ∈ shapes, sh.pts.length < 2) :
    runIngest (shapes :: rest) = .error .nullWrite :=
  runIngest_nullWrite shapes rest h

theorem c10_null_flush_witness :
    runIngest [[⟨[0], [((0 : ℚ), (0 : ℚ))]⟩]] = .error .nullWrite :=
  c10_null_flush [⟨[0], [((0 : ℚ), (0 : ℚ))]⟩] [] (by decide)

end BuildCoast
